import Mathlib

/-!
Verification of the redcon RESP server framework (tidwall/redcon).

The Go sources under scrutiny are shallowly embedded over byte lists:
`src/redcon.go` (the incremental reader `readCommands`, `Parse`, the
`ServeMux`, the pub/sub engine), `src/append.go` (`ReadNextCommand`,
`readTile38Command`, the RESP encoders) and `src/connect.go` (the historical
detached-connection variant).  Go byte slices become `List Nat`; Go `int`
arithmetic that can overflow is modelled with an explicit two's-complement
wrap at 64 bits.
-/

namespace Redcon

/-- Byte strings (Go `[]byte`) as lists of byte values. -/
abbrev Bytes := List Nat

/-- ASCII string literal to bytes (only used on ASCII literals, where Go's
byte view of a string is exactly the character codes). -/
def ascii (s : String) : Bytes := s.data.map Char.toNat

/-- `at0 b i` models the Go indexing `b[i]`; every use mirrors a source
access that is bounds-guarded, so the default 0 is never observed. -/
def at0 (b : Bytes) (i : Nat) : Nat := (b.drop i).headD 0

/-- `slice b lo hi` models the Go slice `b[lo:hi]`. -/
def slice (b : Bytes) (lo hi : Nat) : Bytes := (b.drop lo).take (hi - lo)

theorem at0_nil (i : Nat) : at0 [] i = 0 := by
  simp [at0]

theorem at0_cons_zero (c : Nat) (l : Bytes) : at0 (c :: l) 0 = c := rfl

theorem at0_cons_succ (c : Nat) (l : Bytes) (i : Nat) :
    at0 (c :: l) (i + 1) = at0 l i := rfl

theorem drop_app (l1 l2 : List Nat) (n : Nat) :
    (l1 ++ l2).drop (l1.length + n) = l2.drop n := by
  induction l1 with
  | nil => simp
  | cons c t ih => simp [Nat.succ_add, ih]

theorem take_app (l1 l2 : List Nat) :
    (l1 ++ l2).take l1.length = l1 := by
  induction l1 with
  | nil => simp
  | cons c t ih => simp [ih]

theorem at0_app_right (l1 l2 : List Nat) (n : Nat) :
    at0 (l1 ++ l2) (l1.length + n) = at0 l2 n := by
  simp [at0, drop_app]

theorem at0_app_left (l1 l2 : List Nat) (n : Nat) (h : n < l1.length) :
    at0 (l1 ++ l2) n = at0 l1 n := by
  induction l1 generalizing n with
  | nil => simp at h
  | cons c t ih =>
    cases n with
    | zero => rfl
    | succ m =>
      have hm : m < t.length := by simpa using h
      simpa [at0_cons_succ] using ih m hm

theorem slice_app (pre mid post : Bytes) :
    slice (pre ++ mid ++ post) pre.length (pre.length + mid.length) = mid := by
  have h1 : (pre ++ mid ++ post).drop pre.length = mid ++ post := by
    simp [drop_app pre (mid ++ post) 0]
  simp [slice, h1, Nat.add_sub_cancel_left, take_app]

/-- First index (from the head) holding a LF byte; models the byte scans
`for i { if b[i] == LF { ... } }` of the reader. -/
def findLF : Bytes → Option Nat
  | [] => none
  | c :: rest => if c = 10 then some 0 else (findLF rest).map (· + 1)

/-- Scan for a LF starting at index `i`. -/
def findLFFrom (b : Bytes) (i : Nat) : Option Nat :=
  (findLF (b.drop i)).map (· + i)

theorem findLF_none (l : Bytes) (h : ∀ c ∈ l, c ≠ 10) : findLF l = none := by
  induction l with
  | nil => rfl
  | cons c t ih =>
    have hc : c ≠ 10 := h c (List.mem_cons_self c t)
    have ht : ∀ d ∈ t, d ≠ 10 := fun d hd => h d (List.mem_cons_of_mem c hd)
    simp [findLF, hc, ih ht]

theorem findLF_app (seg tail : Bytes) (h : ∀ c ∈ seg, c ≠ 10) :
    findLF (seg ++ 10 :: tail) = some seg.length := by
  induction seg with
  | nil => simp [findLF]
  | cons c t ih =>
    have hc : c ≠ 10 := h c (List.mem_cons_self c t)
    have ht : ∀ d ∈ t, d ≠ 10 := fun d hd => h d (List.mem_cons_of_mem c hd)
    simp [findLF, hc, ih ht]

theorem findLFFrom_ge (b : Bytes) (i k : Nat) (h : findLFFrom b i = some k) :
    i ≤ k := by
  rcases Option.map_eq_some.mp h with ⟨m, _, rfl⟩
  exact Nat.le_add_left i m

theorem findLFFrom_none_of_ge (b : Bytes) (i : Nat) (h : b.length ≤ i) :
    findLFFrom b i = none := by
  have : b.drop i = [] := List.drop_eq_nil_of_le h
  simp [findLFFrom, this, findLF]

theorem findLF_some_lt (l : Bytes) (m : Nat) (h : findLF l = some m) :
    m < l.length := by
  induction l generalizing m with
  | nil => simp [findLF] at h
  | cons c t ih =>
    by_cases hc : c = 10
    · simp [findLF, hc] at h
      simp only [List.length_cons]
      omega
    · simp [findLF, hc] at h
      rcases h with ⟨m2, hm2, hme⟩
      have := ih m2 hm2
      simp only [List.length_cons]
      omega

theorem findLFFrom_lt (b : Bytes) (i k : Nat) (h : findLFFrom b i = some k) :
    k < b.length := by
  rcases Option.map_eq_some.mp h with ⟨m, hm, hk⟩
  have hlt := findLF_some_lt _ _ hm
  rw [List.length_drop] at hlt
  omega

theorem findLFFrom_calc (pre seg tail : Bytes) (h : ∀ c ∈ seg, c ≠ 10) :
    findLFFrom (pre ++ (seg ++ 10 :: tail)) pre.length
      = some (pre.length + seg.length) := by
  have hd : (pre ++ (seg ++ 10 :: tail)).drop pre.length = seg ++ 10 :: tail := by
    simp [drop_app pre (seg ++ 10 :: tail) 0]
  simp [findLFFrom, hd, findLF_app seg tail h, Nat.add_comm]

/-! ### Go integer parsing (`parseInt` from src/redcon.go)

Go's `int` is 64-bit and overflows by wrapping; the accumulation
`n = n*10 + int(b[i]-'0')` is modelled with an explicit wrap. -/

/-- Two's-complement wrap of an integer to the signed 64-bit range. -/
def wrap64 (n : Int) : Int := (n + 2 ^ 63) % 2 ^ 64 - 2 ^ 63

theorem wrap64_eq_self (m : Int) (h1 : -(2 ^ 63) ≤ m) (h2 : m < 2 ^ 63) :
    wrap64 m = m := by
  have hlo : (0 : Int) ≤ m + 2 ^ 63 := by omega
  have hhi : m + 2 ^ 63 < 2 ^ 64 := by omega
  rw [wrap64, Int.emod_eq_of_lt hlo hhi]
  omega

/-- The digit-accumulation loop of `parseInt`: returns `(0, false)` at the
first non-digit byte; otherwise folds the digits into `n` with Go's
wrapping multiply-add. -/
def parseIntLoop : Bytes → Int → Int × Bool
  | [], n => (n, true)
  | c :: rest, n =>
    if c < 48 ∨ 57 < c then (0, false)
    else parseIntLoop rest (wrap64 (n * 10 + ((c : Int) - 48)))

/-- The general path of `parseInt`: optional leading minus, then the digit
loop; on success a sign flip (also wrapping). -/
def parseIntGen : Bytes → Int × Bool
  | [] => (0, true)
  | c :: rest =>
    if c = 45 then
      let r := parseIntLoop rest 0
      if r.2 then (wrap64 (-r.1), true) else r
    else parseIntLoop (c :: rest) 0

/-- `parseInt` from src/redcon.go: fast path for a single digit byte, else
the general path. -/
def parseInt (b : Bytes) : Int × Bool :=
  match b with
  | [c] => if 48 ≤ c ∧ c ≤ 57 then ((c : Int) - 48, true) else parseIntGen [c]
  | _ => parseIntGen b

/-- Decimal digits, fuelled for structural recursion (the fuel never runs
out when it is at least the value being printed). -/
def natDigitsF : Nat → Nat → Bytes
  | 0, n => [48 + n % 10]
  | fuel + 1, n =>
    if n < 10 then [48 + n] else natDigitsF fuel (n / 10) ++ [48 + n % 10]

/-- Decimal digits of a natural number, most significant first; models
`strconv.AppendInt`/`strconv.AppendUint` on the nonnegative values the
encoders emit. -/
def natDigits (n : Nat) : Bytes := natDigitsF n n

theorem natDigitsF_irrel (n : Nat) : ∀ f1 f2 : Nat, n ≤ f1 → n ≤ f2 →
    natDigitsF f1 n = natDigitsF f2 n := by
  induction n using Nat.strong_induction_on with
  | _ n ih =>
    intro f1 f2 h1 h2
    match f1, f2 with
    | 0, 0 => rfl
    | 0, f2 + 1 =>
      have hn : n = 0 := by omega
      subst hn
      simp [natDigitsF]
    | f1 + 1, 0 =>
      have hn : n = 0 := by omega
      subst hn
      simp [natDigitsF]
    | f1 + 1, f2 + 1 =>
      by_cases h10 : n < 10
      · simp [natDigitsF, h10]
      · simp only [natDigitsF, h10, if_false]
        have hd : n / 10 < n := Nat.div_lt_self (by omega) (by omega)
        rw [ih (n / 10) hd f1 f2 (by omega) (by omega)]

/-- The recursive unfolding of `natDigits`. -/
theorem natDigits_eq (n : Nat) :
    natDigits n = if n < 10 then [48 + n] else natDigits (n / 10) ++ [48 + n % 10] := by
  by_cases h10 : n < 10
  · cases n with
    | zero => simp [natDigits, natDigitsF]
    | succ m => simp [natDigits, natDigitsF, h10]
  · obtain ⟨m, rfl⟩ : ∃ m, n = m + 1 := ⟨n - 1, by omega⟩
    simp only [natDigits, natDigitsF, h10, if_false]
    rw [natDigitsF_irrel ((m + 1) / 10) m ((m + 1) / 10) (by omega) (Nat.le_refl _)]

theorem natDigits_mem (n : Nat) : ∀ c ∈ natDigits n, 48 ≤ c ∧ c ≤ 57 := by
  induction n using Nat.strong_induction_on with
  | _ n ih =>
    rw [natDigits_eq]
    split
    · intro c hc
      rename_i h10
      simp at hc
      omega
    · intro c hc
      rename_i h10
      rcases List.mem_append.mp hc with h | h
      · exact ih (n / 10) (Nat.div_lt_self (by omega) (by omega)) c h
      · simp at h
        have : n % 10 < 10 := Nat.mod_lt _ (by omega)
        omega

theorem natDigits_ne_nil (n : Nat) : natDigits n ≠ [] := by
  rw [natDigits_eq]
  split
  · simp
  · simp

/-- Value of a digit string under Go's accumulation, without wrapping. -/
def digitsVal (l : Bytes) (acc : Nat) : Nat :=
  l.foldl (fun a c => a * 10 + (c - 48)) acc

theorem digitsVal_cons (c : Nat) (l : Bytes) (acc : Nat) :
    digitsVal (c :: l) acc = digitsVal l (acc * 10 + (c - 48)) := rfl

theorem digitsVal_le (l : Bytes) (acc : Nat) : acc ≤ digitsVal l acc := by
  induction l generalizing acc with
  | nil => exact Nat.le_refl _
  | cons c t ih =>
    calc acc ≤ acc * 10 + (c - 48) := by omega
    _ ≤ digitsVal t (acc * 10 + (c - 48)) := ih _
    _ = digitsVal (c :: t) acc := rfl

theorem digitsVal_append (l1 l2 : Bytes) (acc : Nat) :
    digitsVal (l1 ++ l2) acc = digitsVal l2 (digitsVal l1 acc) := by
  simp [digitsVal, List.foldl_append]

theorem digitsVal_natDigits (n : Nat) : ∀ acc : Nat,
    digitsVal (natDigits n) acc = acc * 10 ^ (natDigits n).length + n := by
  induction n using Nat.strong_induction_on with
  | _ n ih =>
    intro acc
    rw [natDigits_eq]
    split
    · rename_i h10
      simp [digitsVal_cons, digitsVal]
    · rename_i h10
      rw [digitsVal_append, ih (n / 10) (Nat.div_lt_self (by omega) (by omega))]
      simp [digitsVal_cons, digitsVal, List.length_append]
      have hdm : n = n / 10 * 10 + n % 10 := by omega
      rw [pow_succ]
      generalize (natDigits (n / 10)).length = L
      conv_rhs => rw [hdm]
      ring

theorem parseIntLoop_digits (l : Bytes) : ∀ acc : Nat,
    (∀ c ∈ l, 48 ≤ c ∧ c ≤ 57) → digitsVal l acc < 2 ^ 63 →
    parseIntLoop l (acc : Int) = ((digitsVal l acc : Int), true) := by
  induction l with
  | nil => intro acc _ _; simp [parseIntLoop, digitsVal]
  | cons c t ih =>
    intro acc hd hv
    have hc : 48 ≤ c ∧ c ≤ 57 := hd c (List.mem_cons_self c t)
    have hng : ¬(c < 48 ∨ 57 < c) := by omega
    rw [parseIntLoop]
    simp only [hng, if_false]
    have hcast : (acc : Int) * 10 + ((c : Int) - 48) = ((acc * 10 + (c - 48) : Nat) : Int) := by
      omega
    have hmono : acc * 10 + (c - 48) ≤ digitsVal t (acc * 10 + (c - 48)) := digitsVal_le _ _
    have hacc2 : digitsVal t (acc * 10 + (c - 48)) < 2 ^ 63 := by
      rw [digitsVal_cons] at hv
      exact hv
    have hwrap : wrap64 ((acc : Int) * 10 + ((c : Int) - 48))
        = ((acc * 10 + (c - 48) : Nat) : Int) := by
      rw [hcast]
      apply wrap64_eq_self
      · have : (0 : Int) ≤ ((acc * 10 + (c - 48) : Nat) : Int) := Int.ofNat_nonneg _
        omega
      · have h1 : acc * 10 + (c - 48) < 2 ^ 63 := by omega
        exact_mod_cast h1
    rw [hwrap, ih (acc * 10 + (c - 48)) (fun d hdm => hd d (List.mem_cons_of_mem c hdm)) hacc2]
    rw [digitsVal_cons]

theorem parseInt_natDigits (n : Nat) (h : n < 2 ^ 63) :
    parseInt (natDigits n) = ((n : Int), true) := by
  have hval : digitsVal (natDigits n) 0 = n := by
    rw [digitsVal_natDigits]
    omega
  by_cases h10 : n < 10
  · rw [natDigits_eq]
    simp only [h10, if_true]
    have : 48 ≤ 48 + n ∧ 48 + n ≤ 57 := by omega
    simp [parseInt, this]
  · have hsplit : natDigits n = natDigits (n / 10) ++ [48 + n % 10] := by
      rw [natDigits_eq]
      simp [h10]
    rcases hhd : natDigits (n / 10) with _ | ⟨a, t⟩
    · exact absurd hhd (natDigits_ne_nil _)
    · have hform : natDigits n = a :: (t ++ [48 + n % 10]) := by
        rw [hsplit, hhd]
        rfl
      have ha : 48 ≤ a ∧ a ≤ 57 := by
        apply natDigits_mem (n / 10)
        rw [hhd]
        exact List.mem_cons_self a t
      have hlen : t ++ [48 + n % 10] ≠ [] := by simp
      rcases ht2 : t ++ [48 + n % 10] with _ | ⟨b2, t2⟩
      · exact absurd ht2 hlen
      · rw [hform, ht2]
        have hne45 : a ≠ 45 := by omega
        show parseIntGen (a :: b2 :: t2) = _
        rw [parseIntGen]
        simp only [hne45, if_false]
        have hdl : ∀ c ∈ (a :: b2 :: t2), 48 ≤ c ∧ c ≤ 57 := by
          intro c hcm
          apply natDigits_mem n
          rw [hform, ht2]
          exact hcm
        have hvv : digitsVal (a :: b2 :: t2) 0 = n := by
          rw [← hval, hform, ht2]
        have := parseIntLoop_digits (a :: b2 :: t2) 0 hdl (by rw [hvv]; omega)
        rw [show ((0 : Nat) : Int) = (0 : Int) from rfl] at this
        rw [this, hvv]

/-! ### The reader's data model -/

/-- The error identities of the reader (src/redcon.go, src/append.go). -/
inductive Err where
  | unbalancedQuotes
  | invalidBulkLength
  | invalidMultiBulkLength
  | incompleteCommand
  | tooMuchData
  | expectedDollar (got : Nat)
  | invalidMessage
  | incompletePacket
deriving DecidableEq, Repr

/-- A parsed command: `Raw` is the wire form (RESP re-encoding for telnet
sources), `Args` the argument vector. -/
structure Command where
  raw : Bytes
  args : List Bytes
deriving DecidableEq, Repr

/-- `AppendBulk` from src/append.go: `'$' len CRLF payload CRLF`. -/
def appendBulk (x : Bytes) : Bytes :=
  36 :: (natDigits x.length ++ [13, 10] ++ x ++ [13, 10])

/-- Concatenated bulk encodings of an argument vector. -/
def bulksEnc : List Bytes → Bytes
  | [] => []
  | x :: xs => appendBulk x ++ bulksEnc xs

/-- RESP multibulk encoding of an argument vector, as produced by
`WriteArray` + `WriteBulk` (the telnet re-encoding path of readCommands). -/
def encodeRESP (args : List Bytes) : Bytes :=
  42 :: (natDigits args.length ++ [13, 10] ++ bulksEnc args)

/-- Argument extraction from the recorded marks:
`cmd.Args[h/2] = cmd.Raw[marks[h]:marks[h+1]]`.  The model stores each
mark as one pair where the Go code stores two consecutive ints. -/
def argsFromMarks (raw : Bytes) (marks : List (Nat × Nat)) : List Bytes :=
  marks.map (fun m => slice raw m.1 m.2)

/-! ### The RESP branch of `Reader.readCommands` (src/redcon.go) -/

/-- Result of the bulk-reading loop (`for j := 0; j < count; j++`). -/
inductive BulkRes where
  | err (e : Err)
  | notReady
  | done (marks : List (Nat × Nat)) (i : Nat)
deriving DecidableEq, Repr

/-- The bulk-reading loop of the `case '*'` branch.  `i` is the scan index
(pointing at the byte before the next bulk's `$`, i.e. the previous LF), the
second argument the number of bulks still to read.  Each mark pair is the
half-open byte range of one argument payload. -/
def readBulks (b : Bytes) : Nat → Nat → List (Nat × Nat) → BulkRes
  | i, 0, marks => .done marks i
  | i, j + 1, marks =>
    if i + 1 < b.length then
      if at0 b (i + 1) ≠ 36 then .err (.expectedDollar (at0 b (i + 1)))
      else
        match findLFFrom b (i + 1) with
        | none => readBulks b b.length j marks
        | some k =>
          if at0 b (k - 1) ≠ 13 then .err .invalidBulkLength
          else
            let r := parseInt (slice b (i + 2) (k - 1))
            if ¬r.2 ∨ r.1 < 0 then .err .invalidBulkLength
            else
              let size := r.1.toNat
              if b.length ≤ k + size + 2 then .notReady
              else if at0 b (k + size + 2) ≠ 10 ∨ at0 b (k + size + 1) ≠ 13 then
                .err .invalidBulkLength
              else readBulks b (k + size + 2) j (marks ++ [(k + 1, k + 1 + size)])
    else readBulks b (i + 1) j marks

theorem readBulks_ge (b : Bytes) (j : Nat) : ∀ i marks marks2 i2,
    readBulks b i j marks = .done marks2 i2 → i ≤ i2 := by
  induction j with
  | zero =>
    intro i marks marks2 i2 h
    rw [readBulks] at h
    cases h
    exact Nat.le_refl _
  | succ j ih =>
    intro i marks marks2 i2 h
    rw [readBulks] at h
    by_cases hg : i + 1 < b.length
    · simp only [hg, if_true] at h
      by_cases hd : at0 b (i + 1) ≠ 36
      · simp [hd] at h
      · simp only [hd, if_false] at h
        rcases hk : findLFFrom b (i + 1) with _ | k
        · rw [hk] at h
          have := ih _ _ _ _ h
          omega
        · rw [hk] at h
          have hkge := findLFFrom_ge _ _ _ hk
          by_cases hcr : at0 b (k - 1) ≠ 13
          · simp [hcr] at h
          · simp only [hcr, if_false] at h
            by_cases hok : ¬(parseInt (slice b (i + 2) (k - 1))).2 = true ∨
                (parseInt (slice b (i + 2) (k - 1))).1 < 0
            · rw [if_pos hok] at h
              cases h
            · rw [if_neg hok] at h
              by_cases hnr : b.length ≤ k + (parseInt (slice b (i + 2) (k - 1))).1.toNat + 2
              · simp [hnr] at h
              · simp only [hnr, if_false] at h
                by_cases hterm : at0 b (k + (parseInt (slice b (i + 2) (k - 1))).1.toNat + 2) ≠ 10 ∨
                    at0 b (k + (parseInt (slice b (i + 2) (k - 1))).1.toNat + 1) ≠ 13
                · simp [hterm] at h
                · simp only [hterm, if_false] at h
                  have := ih _ _ _ _ h
                  omega
    · simp only [hg, if_false] at h
      have := ih _ _ _ _ h
      omega

/-- Once the scan index has run past the buffer, the remaining bulk
iterations only step the index (`i++` with the body skipped). -/
theorem readBulks_dead (b : Bytes) (j : Nat) : ∀ i marks, b.length ≤ i + 1 →
    readBulks b i j marks = .done marks (i + j) := by
  induction j with
  | zero => intro i marks _; rw [readBulks]; simp
  | succ j ih =>
    intro i marks h
    rw [readBulks]
    have hg : ¬(i + 1 < b.length) := by omega
    simp only [hg, if_false]
    rw [ih (i + 1) marks (by omega)]
    congr 1
    omega

/-- If the bulk loop finishes without having recorded all requested marks,
its final index lies at or past the end of the buffer (so the subsequent
rescan finds nothing and the reader reports need-more). -/
theorem readBulks_incomplete (b : Bytes) (j : Nat) : ∀ i marks marks2 i2,
    readBulks b i j marks = .done marks2 i2 →
    marks2.length ≠ marks.length + j → b.length ≤ i2 := by
  induction j with
  | zero =>
    intro i marks marks2 i2 h hne
    rw [readBulks] at h
    cases h
    simp at hne
  | succ j ih =>
    intro i marks marks2 i2 h hne
    rw [readBulks] at h
    by_cases hg : i + 1 < b.length
    · simp only [hg, if_true] at h
      by_cases hd : at0 b (i + 1) ≠ 36
      · simp [hd] at h
      · simp only [hd, if_false] at h
        rcases hk : findLFFrom b (i + 1) with _ | k
        · rw [hk] at h
          rw [readBulks_dead b j b.length marks (by omega)] at h
          cases h
          omega
        · rw [hk] at h
          by_cases hcr : at0 b (k - 1) ≠ 13
          · simp [hcr] at h
          · simp only [hcr, if_false] at h
            by_cases hok : ¬(parseInt (slice b (i + 2) (k - 1))).2 = true ∨
                (parseInt (slice b (i + 2) (k - 1))).1 < 0
            · rw [if_pos hok] at h
              cases h
            · rw [if_neg hok] at h
              by_cases hnr : b.length ≤ k + (parseInt (slice b (i + 2) (k - 1))).1.toNat + 2
              · simp [hnr] at h
              · simp only [hnr, if_false] at h
                by_cases hterm : at0 b (k + (parseInt (slice b (i + 2) (k - 1))).1.toNat + 2) ≠ 10 ∨
                    at0 b (k + (parseInt (slice b (i + 2) (k - 1))).1.toNat + 1) ≠ 13
                · simp [hterm] at h
                · simp only [hterm, if_false] at h
                  apply ih _ _ _ _ h
                  simp only [List.length_append, List.length_cons, List.length_nil]
                  omega
    · simp only [hg, if_false] at h
      rw [readBulks_dead b j (i + 1) marks (by omega)] at h
      cases h
      omega

/-- Result of one attempt at the `case '*'` branch. -/
inductive RespRes where
  | err (e : Err)
  | more
  | cmd (iEnd : Nat) (marks : List (Nat × Nat))
deriving DecidableEq, Repr

/-- The `case '*'` branch of `readCommands`: find the count line's LF, parse
the count (which must be ≥ 1; `count <= 0` is rejected), then read the
bulks.  `iEnd` is the index of the final LF of a complete command.  When the
bulk loop ends with an incomplete mark list the Go outer loop keeps
scanning from the next index (which, per `readBulks_incomplete`, is already
past the buffer).  The scan index grows strictly at every rescan and the
loop stops once it passes the buffer, so fuel `b.length + 1` never runs
out; the fuel-0 fallback repeats the past-the-buffer answer `.more`. -/
def respScanF (b : Bytes) : Nat → Nat → RespRes
  | 0, _ => .more
  | fuel + 1, i =>
    match findLFFrom b i with
    | none => .more
    | some k =>
      if at0 b (k - 1) ≠ 13 then .err .invalidMultiBulkLength
      else
        let r := parseInt (slice b 1 (k - 1))
        if ¬r.2 ∨ r.1 ≤ 0 then .err .invalidMultiBulkLength
        else
          match readBulks b k r.1.toNat [] with
          | .err e => .err e
          | .notReady => .more
          | .done marks i2 =>
            if marks.length = r.1.toNat then .cmd i2 marks
            else respScanF b fuel (i2 + 1)

/-- The `case '*'` scan, started with always-sufficient fuel. -/
def respScan (b : Bytes) (i : Nat) : RespRes := respScanF b (b.length + 1) i

/-- From an index at or past the end of the buffer the scan finds nothing. -/
theorem respScanF_more_of_ge (b : Bytes) (i : Nat) (h : b.length ≤ i) :
    ∀ fuel, respScanF b fuel i = .more := by
  intro fuel
  cases fuel with
  | zero => rfl
  | succ f =>
    rw [respScanF, findLFFrom_none_of_ge b i h]

/-- Fuel does not matter as long as it covers the remaining scan range. -/
theorem respScanF_irrel (b : Bytes) : ∀ f1 i f2, b.length ≤ i + f1 → b.length ≤ i + f2 →
    respScanF b f1 i = respScanF b f2 i := by
  intro f1
  induction f1 with
  | zero =>
    intro i f2 h1 h2
    rw [respScanF_more_of_ge b i (by omega), respScanF_more_of_ge b i (by omega)]
  | succ f1 ih =>
    intro i f2 h1 h2
    cases f2 with
    | zero =>
      rw [respScanF_more_of_ge b i (by omega), respScanF_more_of_ge b i (by omega)]
    | succ f2 =>
      rw [respScanF, respScanF]
      rcases hk : findLFFrom b i with _ | k
      · rfl
      · have hki := findLFFrom_ge b i k hk
        simp only
        by_cases hcr : at0 b (k - 1) ≠ 13
        · simp [hcr]
        · simp only [hcr, if_false]
          by_cases hok : ¬(parseInt (slice b 1 (k - 1))).2 = true ∨
              (parseInt (slice b 1 (k - 1))).1 ≤ 0
          · rw [if_pos hok, if_pos hok]
          · rw [if_neg hok, if_neg hok]
            rcases hrb : readBulks b k (parseInt (slice b 1 (k - 1))).1.toNat [] with
              e | _ | ⟨marks, i2⟩
            · rfl
            · rfl
            · have hi2 := readBulks_ge b _ _ _ _ _ hrb
              simp only
              by_cases hm : marks.length = (parseInt (slice b 1 (k - 1))).1.toNat
              · simp [hm]
              · simp only [hm, if_false]
                exact ih (i2 + 1) f2 (by omega) (by omega)

/-! ### The telnet branch of `Reader.readCommands` -/

/-- The telnet line splitter: one step per byte of the current segment.
`pos` is the Go loop index `i` within the current segment (checked against 0
at a quote opener), `nline` the argument being accumulated.  Restart events
(`continue outer`) recurse on the remaining segment.  At the end of the
segment the Go code appends `line` itself; a segment can only be exhausted
in unquoted mode with no restarts, in which case `nline` equals it. -/
def telnetArgs : Bytes → Nat → Bytes → Bool → Nat → Bool → List Bytes →
    Except Err (List Bytes)
  | [], _, nline, quote, _, _, args =>
    if quote then .error .unbalancedQuotes
    else if 0 < nline.length then .ok (args ++ [nline]) else .ok args
  | c :: rest, pos, nline, quote, quotech, escape, args =>
    if ¬quote then
      if c = 32 then
        telnetArgs rest 0 [] false quotech escape
          (if 0 < nline.length then args ++ [nline] else args)
      else if c = 34 ∨ c = 39 then
        if pos ≠ 0 then .error .unbalancedQuotes
        else telnetArgs rest 0 [] true c escape args
      else telnetArgs rest (pos + 1) (nline ++ [c]) false quotech escape args
    else
      if escape then
        telnetArgs rest (pos + 1)
          (nline ++ [if c = 110 then 10 else if c = 114 then 13
                     else if c = 116 then 9 else c])
          true quotech false args
      else if c = quotech then
        if 0 < rest.length ∧ at0 rest 0 ≠ 32 then .error .unbalancedQuotes
        else telnetArgs rest 0 [] false 0 escape (args ++ [nline])
      else if c = 92 then
        telnetArgs rest (pos + 1) nline true quotech true args
      else telnetArgs rest (pos + 1) (nline ++ [c]) true quotech false args

/-- Parse one telnet line into its argument vector. -/
def telnetParseLine (line : Bytes) : Except Err (List Bytes) :=
  telnetArgs line 0 [] false 0 false []

/-! ### `Reader.readCommands` over the buffered bytes

The pure content of `readCommands`: parse as many complete commands as
possible from the buffer, returning them with the unconsumed remainder
(which stays in the reader's buffer, `rd.start = rd.end - len(b)`).  Buffer
growth, rewinding and the refill from the underlying stream do not change
the buffered byte content and are modelled by `feedChunks` below. -/
def readCommandsF : Nat → Bytes → Except Err (List Command × Bytes)
  | 0, b => .ok ([], b)
  | fuel + 1, b =>
    match b with
    | [] => .ok ([], [])
    | c :: t =>
      if c = 42 then
        match respScan (c :: t) 1 with
        | .err e => .error e
        | .more => .ok ([], c :: t)
        | .cmd iEnd marks =>
          let raw := (c :: t).take (iEnd + 1)
          match readCommandsF fuel ((c :: t).drop (iEnd + 1)) with
          | .error e => .error e
          | .ok (cmds, rest) => .ok (⟨raw, argsFromMarks raw marks⟩ :: cmds, rest)
      else
        match findLFFrom (c :: t) 0 with
        | none => .ok ([], c :: t)
        | some i =>
          let line := if 0 < i ∧ at0 (c :: t) (i - 1) = 13
                      then slice (c :: t) 0 (i - 1) else slice (c :: t) 0 i
          match telnetArgs line 0 [] false 0 false [] with
          | .error e => .error e
          | .ok args =>
            match readCommandsF fuel ((c :: t).drop (i + 1)) with
            | .error e => .error e
            | .ok (cmds, rest) =>
              if 0 < args.length then .ok (⟨encodeRESP args, args⟩ :: cmds, rest)
              else .ok (cmds, rest)

/-- The reader's parse pass, started with always-sufficient fuel (every
parsed command consumes at least one byte, so at most `b.length + 1` steps
happen; the fuel-0 fallback repeats the empty-buffer answer). -/
def readCommands (b : Bytes) : Except Err (List Command × Bytes) :=
  readCommandsF (b.length + 1) b

theorem readCommandsF_irrel : ∀ f1 b f2, b.length < f1 → b.length < f2 →
    readCommandsF f1 b = readCommandsF f2 b := by
  intro f1
  induction f1 with
  | zero => intro b f2 h1 _; omega
  | succ f1 ih =>
    intro b f2 h1 h2
    cases f2 with
    | zero => omega
    | succ f2 =>
      rcases b with _ | ⟨c, t⟩
      · rfl
      · rw [readCommandsF, readCommandsF]
        by_cases hc : c = 42
        · simp only [hc, if_true]
          rcases hrs : respScan (42 :: t) 1 with e | _ | ⟨iEnd, marks⟩
          · rfl
          · rfl
          · simp only
            rw [ih ((42 :: t).drop (iEnd + 1)) f2
              (by simp only [List.length_drop, List.length_cons] at h1 ⊢; omega)
              (by simp only [List.length_drop, List.length_cons] at h2 ⊢; omega)]
        · simp only [hc, if_false]
          rcases hlf : findLFFrom (c :: t) 0 with _ | i
          · rfl
          · simp only
            rcases hta : telnetArgs (if 0 < i ∧ at0 (c :: t) (i - 1) = 13
                then slice (c :: t) 0 (i - 1) else slice (c :: t) 0 i)
                0 [] false 0 false [] with e | args
            · rfl
            · simp only
              rw [ih ((c :: t).drop (i + 1)) f2
                (by simp only [List.length_drop, List.length_cons] at h1 ⊢; omega)
                (by simp only [List.length_drop, List.length_cons] at h2 ⊢; omega)]

/-- `Parse` from src/redcon.go: parse exactly one command from a
caller-owned buffer (`rd.rd == nil`, so an empty parse yields
`errIncompleteCommand`; unconsumed leftover yields `errTooMuchData`). -/
def Parse (raw : Bytes) : Except Err Command :=
  match readCommands raw with
  | .error e => .error e
  | .ok (cmds, rest) =>
    match cmds with
    | [] => .error .incompleteCommand
    | c :: _ => if 0 < rest.length then .error .tooMuchData else .ok c

/-! ### Position helpers for reasoning about the scan over encodings -/

theorem take_app_le (l1 l2 : List Nat) (n : Nat) (h : n ≤ l1.length) :
    (l1 ++ l2).take n = l1.take n := by
  induction l1 generalizing n with
  | nil =>
    have : n = 0 := by simpa using h
    simp [this]
  | cons c t ih =>
    cases n with
    | zero => simp
    | succ m => simp [ih m (by simpa using h)]

theorem take_app_add (l1 l2 : List Nat) (n : Nat) :
    (l1 ++ l2).take (l1.length + n) = l1 ++ l2.take n := by
  induction l1 with
  | nil => simp
  | cons c t ih => simp [Nat.succ_add, ih]

theorem mem_of_take (l : Bytes) (n c : Nat) (h : c ∈ l.take n) : c ∈ l := by
  induction l generalizing n with
  | nil => simp at h
  | cons d t ih =>
    cases n with
    | zero => simp at h
    | succ m =>
      rcases List.mem_cons.mp h with h1 | h1
      · exact h1 ▸ List.mem_cons_self d t
      · exact List.mem_cons_of_mem d (ih m h1)

theorem at0_split (b u v : Bytes) (c n : Nat) (h : b = u ++ c :: v)
    (hn : n = u.length) : at0 b n = c := by
  subst h hn
  have := at0_app_right u (c :: v) 0
  simpa using this

theorem slice_split (b u mid v : Bytes) (lo hi : Nat) (h : b = u ++ mid ++ v)
    (hlo : lo = u.length) (hhi : hi = u.length + mid.length) :
    slice b lo hi = mid := by
  subst h hlo hhi
  exact slice_app u mid v

theorem findLFFrom_split (b u seg v : Bytes) (i : Nat)
    (h : b = u ++ (seg ++ 10 :: v)) (hi : i = u.length)
    (hseg : ∀ c ∈ seg, c ≠ 10) :
    findLFFrom b i = some (u.length + seg.length) := by
  subst h hi
  exact findLFFrom_calc u seg v hseg

theorem natDigits_no_lf (n : Nat) : ∀ c ∈ natDigits n, c ≠ 10 := by
  intro c hc
  have := natDigits_mem n c hc
  omega

theorem appendBulk_length (x : Bytes) :
    (appendBulk x).length = (natDigits x.length).length + x.length + 5 := by
  simp [appendBulk]
  omega

theorem encodeRESP_length (args : List Bytes) :
    (encodeRESP args).length
      = (natDigits args.length).length + (bulksEnc args).length + 3 := by
  simp [encodeRESP]
  omega

/-! ### The bulk loop over complete encodings -/

/-- Expected payload marks for the encoded bulks of `xs`, when their
encoding starts at absolute position `p`. -/
def marksFor : Nat → List Bytes → List (Nat × Nat)
  | _, [] => []
  | p, x :: xs =>
    (p + (natDigits x.length).length + 3,
     p + (natDigits x.length).length + 3 + x.length)
      :: marksFor (p + (appendBulk x).length) xs

theorem marksFor_length (xs : List Bytes) : ∀ p, (marksFor p xs).length = xs.length := by
  induction xs with
  | nil => intro p; rfl
  | cons x t ih => intro p; simp [marksFor, ih]

/-- One complete encoded bulk advances the loop by exactly its encoding,
recording its payload span. -/
theorem readBulks_cons (pre tail2 x : Bytes) (j : Nat) (marks : List (Nat × Nat))
    (hpre : 1 ≤ pre.length) (hx : x.length < 2 ^ 63) :
    readBulks (pre ++ (appendBulk x ++ tail2)) (pre.length - 1) (j + 1) marks
      = readBulks (pre ++ (appendBulk x ++ tail2))
          (pre.length + (appendBulk x).length - 1) j
          (marks ++ [(pre.length + (natDigits x.length).length + 3,
                      pre.length + (natDigits x.length).length + 3 + x.length)]) := by
  set b := pre ++ (appendBulk x ++ tail2) with hb
  set d := (natDigits x.length).length with hd
  set L := pre.length with hLdef
  have hblen : b.length = L + (d + x.length + 5) + tail2.length := by
    simp [hb, appendBulk_length]
    omega
  have hL1 : L - 1 + 1 = L := by omega
  have hL2 : L - 1 + 2 = L + 1 := by omega
  rw [readBulks]
  rw [hL1, hL2]
  rw [if_pos (show L < b.length by omega)]
  have hat36 : at0 b L = 36 := by
    apply at0_split b pre ((natDigits x.length ++ [13, 10] ++ x ++ [13, 10]) ++ tail2) 36 L
    · simp [hb, appendBulk]
    · rfl
  rw [hat36]
  rw [if_neg (by omega)]
  have hlf : findLFFrom b L = some (L + (d + 2)) := by
    have := findLFFrom_split b pre (36 :: (natDigits x.length ++ [13]))
      (x ++ [13, 10] ++ tail2) L
      (by simp [hb, appendBulk]) rfl
      (by
        intro c hc
        rcases List.mem_cons.mp hc with h1 | h1
        · omega
        · rcases List.mem_append.mp h1 with h2 | h2
          · exact natDigits_no_lf _ c h2
          · simp at h2
            omega)
    simpa [hd] using this
  rw [hlf]
  dsimp only
  have hk1 : L + (d + 2) - 1 = L + d + 1 := by omega
  have hat13 : at0 b (L + d + 1) = 13 := by
    apply at0_split b (pre ++ 36 :: natDigits x.length) (10 :: (x ++ [13, 10] ++ tail2)) 13
    · simp [hb, appendBulk]
    · simp [hd]
      omega
  rw [hk1, hat13]
  rw [if_neg (by omega)]
  have hslice : slice b (L + 1) (L + d + 1) = natDigits x.length := by
    apply slice_split b (pre ++ [36]) (natDigits x.length)
      ([13, 10] ++ x ++ [13, 10] ++ tail2)
    · simp [hb, appendBulk]
    · simp
    · simp [hd]
      omega
  rw [hslice, parseInt_natDigits x.length hx]
  simp only
  rw [if_neg (by simp)]
  have htn : ((x.length : Int)).toNat = x.length := Int.toNat_natCast x.length
  rw [htn]
  rw [if_neg (show ¬ b.length ≤ L + (d + 2) + x.length + 2 by omega)]
  have hat10 : at0 b (L + (d + 2) + x.length + 2) = 10 := by
    apply at0_split b (pre ++ 36 :: (natDigits x.length ++ [13, 10] ++ x ++ [13])) tail2 10
    · simp [hb, appendBulk]
    · simp [hd]
      omega
  have hat13b : at0 b (L + (d + 2) + x.length + 1) = 13 := by
    apply at0_split b (pre ++ 36 :: (natDigits x.length ++ [13, 10] ++ x))
      (10 :: tail2) 13
    · simp [hb, appendBulk]
    · simp [hd]
      omega
  rw [if_neg (by rw [hat10, hat13b]; omega)]
  have he1 : L + (d + 2) + x.length + 2 = L + (appendBulk x).length - 1 := by
    rw [appendBulk_length]
    omega
  have he2 : L + (d + 2) + 1 = L + d + 3 := by omega
  rw [he1, he2]

/-- The bulk loop consumes the complete encodings of `xs` exactly,
recording all payload spans. -/
theorem readBulks_encodeList (xs : List Bytes) : ∀ (pre tail2 : Bytes) (marks : List (Nat × Nat)),
    1 ≤ pre.length → (∀ x ∈ xs, x.length < 2 ^ 63) →
    readBulks (pre ++ (bulksEnc xs ++ tail2)) (pre.length - 1) xs.length marks
      = .done (marks ++ marksFor pre.length xs)
          (pre.length + (bulksEnc xs).length - 1) := by
  induction xs with
  | nil =>
    intro pre tail2 marks hpre _
    simp [bulksEnc, marksFor, readBulks]
  | cons x t ih =>
    intro pre tail2 marks hpre hx
    have hx0 : x.length < 2 ^ 63 := hx x (List.mem_cons_self x t)
    have hb2 : pre ++ (bulksEnc (x :: t) ++ tail2)
        = pre ++ (appendBulk x ++ (bulksEnc t ++ tail2)) := by
      simp [bulksEnc]
    rw [List.length_cons, hb2]
    rw [readBulks_cons pre (bulksEnc t ++ tail2) x t.length marks hpre hx0]
    have hassoc : pre ++ (appendBulk x ++ (bulksEnc t ++ tail2))
        = (pre ++ appendBulk x) ++ (bulksEnc t ++ tail2) := by
      simp [List.append_assoc]
    have hlen2 : pre.length + (appendBulk x).length = (pre ++ appendBulk x).length := by
      simp
    rw [hassoc, hlen2]
    rw [ih (pre ++ appendBulk x)  tail2 _
      (by simp; omega) (fun y hy => hx y (List.mem_cons_of_mem x hy))]
    congr 1
    · simp [marksFor]
    · simp [bulksEnc]
      omega

/-- Extracting the recorded marks from the raw command bytes recovers the
argument payloads. -/
theorem argsFromMarks_cons (raw : Bytes) (m : Nat × Nat) (rest : List (Nat × Nat)) :
    argsFromMarks raw (m :: rest) = slice raw m.1 m.2 :: argsFromMarks raw rest := rfl

theorem argsFromMarks_marksFor (xs : List Bytes) : ∀ pre : Bytes,
    argsFromMarks (pre ++ bulksEnc xs) (marksFor pre.length xs) = xs := by
  induction xs with
  | nil => intro pre; simp [argsFromMarks, marksFor]
  | cons x t ih =>
    intro pre
    rw [marksFor, argsFromMarks_cons]
    have hsl : slice (pre ++ bulksEnc (x :: t))
        (pre.length + (natDigits x.length).length + 3)
        (pre.length + (natDigits x.length).length + 3 + x.length) = x := by
      apply slice_split (pre ++ bulksEnc (x :: t))
        (pre ++ 36 :: (natDigits x.length ++ [13, 10])) x
        ([13, 10] ++ bulksEnc t)
      · simp [bulksEnc, appendBulk]
      · simp
        omega
      · simp
        omega
    rw [hsl]
    congr 1
    have hb3 : pre ++ bulksEnc (x :: t) = (pre ++ appendBulk x) ++ bulksEnc t := by
      simp [bulksEnc]
    have hlen2 : pre.length + (appendBulk x).length = (pre ++ appendBulk x).length := by
      simp
    rw [hb3, hlen2]
    exact ih (pre ++ appendBulk x)

/-- The `case '*'` scan accepts a complete RESP encoding at the head of the
buffer, ending at the last byte of the encoding. -/
theorem respScan_encode (args : List Bytes) (tail2 : Bytes) (hne : args ≠ [])
    (hcnt : args.length < 2 ^ 63) (hx : ∀ x ∈ args, x.length < 2 ^ 63) :
    respScan (encodeRESP args ++ tail2) 1
      = .cmd ((encodeRESP args).length - 1)
          (marksFor ((natDigits args.length).length + 3) args) := by
  set b := encodeRESP args ++ tail2 with hb
  set dA := (natDigits args.length).length with hdA
  have hblen : b.length = dA + (bulksEnc args).length + 3 + tail2.length := by
    simp [hb, encodeRESP_length]
  have hpos : 0 < args.length := List.length_pos.mpr hne
  rw [respScan, respScanF]
  have hlf : findLFFrom b 1 = some (dA + 2) := by
    have h0 := findLFFrom_split b [42] (natDigits args.length ++ [13])
      (bulksEnc args ++ tail2) 1
      (by simp [hb, encodeRESP]) rfl
      (by
        intro c hc
        rcases List.mem_append.mp hc with h2 | h2
        · exact natDigits_no_lf _ c h2
        · simp at h2
          omega)
    rw [h0]
    congr 1
    simp [hdA]
    omega
  rw [hlf]
  dsimp only
  have hk1 : dA + 2 - 1 = dA + 1 := by omega
  have hat13 : at0 b (dA + 1) = 13 := by
    apply at0_split b (42 :: natDigits args.length) (10 :: (bulksEnc args ++ tail2)) 13
    · simp [hb, encodeRESP]
    · simp [hdA]
  rw [hk1, hat13]
  rw [if_neg (by omega)]
  have hslice : slice b 1 (dA + 1) = natDigits args.length := by
    apply slice_split b [42] (natDigits args.length) ([13, 10] ++ bulksEnc args ++ tail2)
    · simp [hb, encodeRESP]
    · rfl
    · simp [hdA]
      omega
  rw [hslice, parseInt_natDigits args.length hcnt]
  dsimp only
  rw [if_neg (by simp; exact hne)]
  have htn : ((args.length : Int)).toNat = args.length := Int.toNat_natCast args.length
  rw [htn]
  have hrb : readBulks b (dA + 2) args.length []
      = .done (marksFor (dA + 3) args) (dA + 3 + (bulksEnc args).length - 1) := by
    have h1 := readBulks_encodeList args (42 :: (natDigits args.length ++ [13, 10]))
      tail2 [] (by simp) hx
    have hpre : (42 :: (natDigits args.length ++ [13, 10])).length = dA + 3 := by
      simp [hdA]
    have hbpre : (42 :: (natDigits args.length ++ [13, 10])) ++ (bulksEnc args ++ tail2)
        = b := by
      simp [hb, encodeRESP]
    rw [hpre, hbpre] at h1
    have hidx : dA + 3 - 1 = dA + 2 := by omega
    rw [hidx] at h1
    simpa using h1
  rw [hrb]
  dsimp only
  rw [if_pos (by rw [marksFor_length])]
  have hfin : dA + 3 + (bulksEnc args).length - 1 = (encodeRESP args).length - 1 := by
    rw [encodeRESP_length]
    omega
  rw [hfin]

/-- A complete RESP encoding at the head of the buffer parses to its
argument vector (raw = the encoding itself), then parsing continues on the
remainder. -/
theorem readCommands_encode (args : List Bytes) (tail2 : Bytes) (hne : args ≠ [])
    (hcnt : args.length < 2 ^ 63) (hx : ∀ x ∈ args, x.length < 2 ^ 63) :
    readCommands (encodeRESP args ++ tail2)
      = match readCommands tail2 with
        | .error e => .error e
        | .ok (cmds, rest) => .ok (⟨encodeRESP args, args⟩ :: cmds, rest) := by
  have hbform : encodeRESP args ++ tail2
      = 42 :: (natDigits args.length ++ [13, 10] ++ bulksEnc args ++ tail2) := by
    simp [encodeRESP]
  rw [readCommands, hbform, readCommandsF]
  dsimp only
  rw [if_pos rfl]
  rw [← hbform]
  rw [respScan_encode args tail2 hne hcnt hx]
  dsimp only
  have hL : (encodeRESP args).length - 1 + 1 = (encodeRESP args).length := by
    rw [encodeRESP_length]
    omega
  rw [hL, take_app]
  have hargs : argsFromMarks (encodeRESP args)
      (marksFor ((natDigits args.length).length + 3) args) = args := by
    have h9 : encodeRESP args
        = (42 :: (natDigits args.length ++ [13, 10])) ++ bulksEnc args := by
      simp [encodeRESP]
    have h10 : (42 :: (natDigits args.length ++ [13, 10])).length
        = (natDigits args.length).length + 3 := by
      simp
    rw [h9, ← h10]
    exact argsFromMarks_marksFor args _
  rw [hargs]
  have hdrop : (encodeRESP args ++ tail2).drop (encodeRESP args).length = tail2 := by
    simp
  rw [hdrop]
  have hfr : readCommandsF (encodeRESP args ++ tail2).length tail2
      = readCommands tail2 := by
    rw [readCommands]
    apply readCommandsF_irrel
    · simp [encodeRESP_length]
    · omega
  rw [hfr]

/-- On a strict prefix of the encoded bulks, the bulk loop either reports
not-ready or finishes with an incomplete mark list and an index past the
buffer — in both cases `readCommands` will consume nothing. -/
theorem readBulks_strictPre (xs : List Bytes) : ∀ (pre : Bytes) (mq : Nat) (marks : List (Nat × Nat)),
    1 ≤ pre.length → (∀ x ∈ xs, x.length < 2 ^ 63) → mq < (bulksEnc xs).length →
    readBulks (pre ++ (bulksEnc xs).take mq) (pre.length - 1) xs.length marks = .notReady ∨
    ∃ marks2 i2,
      readBulks (pre ++ (bulksEnc xs).take mq) (pre.length - 1) xs.length marks
          = .done marks2 i2 ∧
      marks2.length < marks.length + xs.length ∧
      (pre ++ (bulksEnc xs).take mq).length ≤ i2 := by
  induction xs with
  | nil =>
    intro pre mq marks _ _ hmq
    simp [bulksEnc] at hmq
  | cons x t ih =>
    intro pre mq marks hpre hx hmq
    have hx0 : x.length < 2 ^ 63 := hx x (List.mem_cons_self x t)
    set dx := (natDigits x.length).length with hdx
    have hA : (appendBulk x).length = dx + x.length + 5 := appendBulk_length x
    by_cases hge : (appendBulk x).length ≤ mq
    · -- the first bulk is complete in the prefix
      have hq : (bulksEnc (x :: t)).take mq
          = appendBulk x ++ (bulksEnc t).take (mq - (appendBulk x).length) := by
        have h1 : bulksEnc (x :: t) = appendBulk x ++ bulksEnc t := rfl
        have h2 := take_app_add (appendBulk x) (bulksEnc t) (mq - (appendBulk x).length)
        rw [show (appendBulk x).length + (mq - (appendBulk x).length) = mq by omega] at h2
        rw [h1, h2]
      rw [hq, List.length_cons]
      rw [readBulks_cons pre ((bulksEnc t).take (mq - (appendBulk x).length)) x
        t.length marks hpre hx0]
      have hassoc : pre ++ (appendBulk x ++ (bulksEnc t).take (mq - (appendBulk x).length))
          = (pre ++ appendBulk x) ++ (bulksEnc t).take (mq - (appendBulk x).length) := by
        simp
      have hlen2 : pre.length + (appendBulk x).length = (pre ++ appendBulk x).length := by
        simp
      rw [hassoc, hlen2]
      have hmq2 : mq - (appendBulk x).length < (bulksEnc t).length := by
        simp [bulksEnc] at hmq
        omega
      rcases ih (pre ++ appendBulk x) (mq - (appendBulk x).length)
          (marks ++ [(pre.length + (natDigits x.length).length + 3,
            pre.length + (natDigits x.length).length + 3 + x.length)])
          (by simp; omega) (fun y hy => hx y (List.mem_cons_of_mem x hy)) hmq2 with
        hnr | ⟨marks2, i2, hdone, hlt, hge2⟩
      · exact Or.inl hnr
      · refine Or.inr ⟨marks2, i2, hdone, ?_, ?_⟩
        · have h8 : (marks ++ [(pre.length + (natDigits x.length).length + 3,
              pre.length + (natDigits x.length).length + 3 + x.length)]).length
              = marks.length + 1 := by
            simp
          omega
        · have h9 : ((pre ++ appendBulk x) ++ (bulksEnc t).take (mq - (appendBulk x).length)).length
              = (pre ++ (appendBulk x ++ (bulksEnc t).take (mq - (appendBulk x).length))).length := by
            simp
          omega
    · -- the prefix cuts inside the first bulk's encoding
      have hmqA : mq < (appendBulk x).length := by omega
      have hqx : (bulksEnc (x :: t)).take mq = (appendBulk x).take mq := by
        have h1 : bulksEnc (x :: t) = appendBulk x ++ bulksEnc t := rfl
        rw [h1, take_app_le _ _ mq (by omega)]
      rw [hqx, List.length_cons]
      rcases Nat.eq_zero_or_pos mq with hmq0 | hmqpos
      · -- nothing of the bulk is present
        subst hmq0
        simp only [List.take_zero, List.append_nil]
        rw [readBulks]
        rw [if_neg (by omega)]
        rw [show pre.length - 1 + 1 = pre.length by omega]
        rw [readBulks_dead pre t.length pre.length marks (by omega)]
        refine Or.inr ⟨marks, pre.length + t.length, rfl, by omega, by simp⟩
      · by_cases hcut : mq ≤ dx + 2
        · -- the length line's LF is missing: the inner scan runs off the end
          have hq36 : (appendBulk x).take mq
              = 36 :: (natDigits x.length ++ [13, 10] ++ x ++ [13, 10]).take (mq - 1) := by
            rw [appendBulk, show mq = (mq - 1) + 1 by omega]
            rfl
          have hnolf : ∀ c ∈ (appendBulk x).take mq, c ≠ 10 := by
            intro c hc
            have hsub : (appendBulk x).take mq = ((appendBulk x).take (dx + 2)).take mq := by
              rw [List.take_take, Nat.min_eq_left hcut]
            have htk : (appendBulk x).take (dx + 2)
                = 36 :: (natDigits x.length ++ [13]) := by
              rw [appendBulk]
              rw [show dx + 2 = (dx + 1) + 1 by omega]
              rw [List.take_succ_cons]
              congr 1
              have h5 : natDigits x.length ++ [13, 10] ++ x ++ [13, 10]
                  = natDigits x.length ++ ([13] ++ ([10] ++ x ++ [13, 10])) := by
                simp
              rw [h5, show dx + 1 = (natDigits x.length).length + 1 from by rw [hdx],
                take_app_add]
              simp
            rw [hsub, htk] at hc
            have hc2 := mem_of_take _ _ _ hc
            rcases List.mem_cons.mp hc2 with h6 | h6
            · omega
            · rcases List.mem_append.mp h6 with h7 | h7
              · exact natDigits_no_lf _ c h7
              · simp at h7
                omega
          rw [readBulks]
          rw [if_pos (by
            rw [show pre.length - 1 + 1 = pre.length by omega]
            simp
            omega)]
          rw [show pre.length - 1 + 1 = pre.length by omega]
          have hat36 : at0 (pre ++ (appendBulk x).take mq) pre.length = 36 := by
            apply at0_split _ pre ((natDigits x.length ++ [13, 10] ++ x ++ [13, 10]).take (mq - 1)) 36
            · rw [hq36]
            · rfl
          rw [hat36]
          rw [if_neg (by omega)]
          have hlfn : findLFFrom (pre ++ (appendBulk x).take mq) pre.length = none := by
            rw [findLFFrom]
            have hdp : (pre ++ (appendBulk x).take mq).drop pre.length
                = (appendBulk x).take mq := by
              simp
            rw [hdp, findLF_none _ hnolf]
            rfl
          rw [hlfn]
          rw [readBulks_dead _ t.length _ marks (by omega)]
          refine Or.inr ⟨marks, (pre ++ (appendBulk x).take mq).length + t.length,
            rfl, by omega, by omega⟩
        · -- the length line is complete but payload/terminator is truncated
          have hcut2 : dx + 3 ≤ mq := by omega
          have hqsplit : (appendBulk x).take mq
              = (36 :: (natDigits x.length ++ [13])) ++ 10 :: (x ++ [13, 10]).take (mq - (dx + 3)) := by
            rw [appendBulk]
            have h5 : 36 :: (natDigits x.length ++ [13, 10] ++ x ++ [13, 10])
                = (36 :: (natDigits x.length ++ [13]) ++ [10]) ++ (x ++ [13, 10]) := by
              simp
            rw [h5]
            rw [show mq = (36 :: (natDigits x.length ++ [13]) ++ [10]).length + (mq - (dx + 3)) by
              simp [hdx]; omega]
            rw [take_app_add]
            simp
          set b := pre ++ (appendBulk x).take mq with hbdef
          rw [readBulks]
          have hblen : b.length = pre.length + mq := by simp [hbdef]; omega
          rw [if_pos (by rw [show pre.length - 1 + 1 = pre.length by omega]; omega)]
          rw [show pre.length - 1 + 1 = pre.length by omega]
          have hat36 : at0 b pre.length = 36 := by
            apply at0_split b pre ((natDigits x.length ++ [13]) ++ 10 :: (x ++ [13, 10]).take (mq - (dx + 3))) 36
            · rw [hbdef, hqsplit]
              simp
            · rfl
          rw [hat36]
          rw [if_neg (by omega)]
          have hlf : findLFFrom b pre.length = some (pre.length + (dx + 2)) := by
            have h0 := findLFFrom_split b pre (36 :: (natDigits x.length ++ [13]))
              ((x ++ [13, 10]).take (mq - (dx + 3))) pre.length
              (by rw [hbdef, hqsplit]; try simp) rfl
              (by
                intro c hc
                rcases List.mem_cons.mp hc with h6 | h6
                · omega
                · rcases List.mem_append.mp h6 with h7 | h7
                  · exact natDigits_no_lf _ c h7
                  · simp at h7
                    omega)
            rw [h0]
            congr 1
            simp [hdx]
          rw [hlf]
          dsimp only
          have hk1 : pre.length + (dx + 2) - 1 = pre.length + dx + 1 := by omega
          have hat13 : at0 b (pre.length + dx + 1) = 13 := by
            apply at0_split b (pre ++ 36 :: natDigits x.length)
              (10 :: (x ++ [13, 10]).take (mq - (dx + 3))) 13
            · rw [hbdef, hqsplit]
              simp
            · simp [hdx]
              omega
          rw [hk1, hat13]
          rw [if_neg (by omega)]
          have hslice : slice b (pre.length + 1) (pre.length + dx + 1) = natDigits x.length := by
            apply slice_split b (pre ++ [36]) (natDigits x.length)
              ([13] ++ 10 :: (x ++ [13, 10]).take (mq - (dx + 3)))
            · rw [hbdef, hqsplit]
              simp
            · simp
            · simp [hdx]
              omega
          rw [show pre.length - 1 + 2 = pre.length + 1 by omega, hslice,
            parseInt_natDigits x.length hx0]
          dsimp only
          rw [if_neg (by simp)]
          rw [Int.toNat_natCast]
          rw [if_pos (by omega)]
          exact Or.inl rfl

/-- The `case '*'` scan over a buffer that starts with a complete count
line for `args`: the outcome is decided by the bulk loop. -/
theorem respScanF_hdr (args : List Bytes) (w : Bytes) (hne : args ≠ [])
    (hcnt : args.length < 2 ^ 63) (fuel : Nat) :
    respScanF ((42 :: (natDigits args.length ++ [13, 10])) ++ w) (fuel + 1) 1
      = match readBulks ((42 :: (natDigits args.length ++ [13, 10])) ++ w)
          ((natDigits args.length).length + 2) args.length [] with
        | .err e => .err e
        | .notReady => .more
        | .done marks i2 =>
          if marks.length = args.length then .cmd i2 marks
          else respScanF ((42 :: (natDigits args.length ++ [13, 10])) ++ w)
            fuel (i2 + 1) := by
  set dA := (natDigits args.length).length with hdA
  set b := (42 :: (natDigits args.length ++ [13, 10])) ++ w with hb
  have hpos : 0 < args.length := List.length_pos.mpr hne
  rw [respScanF]
  have hlf : findLFFrom b 1 = some (dA + 2) := by
    have h0 := findLFFrom_split b [42] (natDigits args.length ++ [13]) w 1
      (by rw [hb]; simp) rfl
      (by
        intro c hc
        rcases List.mem_append.mp hc with h2 | h2
        · exact natDigits_no_lf _ c h2
        · simp at h2
          omega)
    rw [h0]
    congr 1
    simp [hdA]
    omega
  rw [hlf]
  dsimp only
  have hk1 : dA + 2 - 1 = dA + 1 := by omega
  have hat13 : at0 b (dA + 1) = 13 := by
    apply at0_split b (42 :: natDigits args.length) (10 :: w) 13
    · rw [hb]
      simp
    · simp [hdA]
  rw [hk1, hat13]
  rw [if_neg (by omega)]
  have hslice : slice b 1 (dA + 1) = natDigits args.length := by
    apply slice_split b [42] (natDigits args.length) ([13, 10] ++ w)
    · rw [hb]
      simp
    · rfl
    · simp [hdA]
      omega
  rw [hslice, parseInt_natDigits args.length hcnt]
  dsimp only
  rw [if_neg (by simp; exact hne)]
  rw [Int.toNat_natCast]

/-- On a strict nonempty prefix of a RESP encoding the scan reports
need-more. -/
theorem respScan_encode_strictPre (args : List Bytes) (m : Nat) (hne : args ≠ [])
    (hcnt : args.length < 2 ^ 63) (hx : ∀ x ∈ args, x.length < 2 ^ 63)
    (hm1 : 1 ≤ m) (hm : m < (encodeRESP args).length) :
    respScan ((encodeRESP args).take m) 1 = .more := by
  set dA := (natDigits args.length).length with hdA
  have hS : encodeRESP args = 42 :: (natDigits args.length ++ [13, 10] ++ bulksEnc args) := rfl
  have hLen : (encodeRESP args).length = dA + (bulksEnc args).length + 3 := by
    rw [encodeRESP_length, hdA]
  by_cases hcase : m ≤ dA + 2
  · have hp : (encodeRESP args).take m
        = 42 :: (natDigits args.length ++ [13, 10] ++ bulksEnc args).take (m - 1) := by
      obtain ⟨m2, hm2⟩ : ∃ m2, m = m2 + 1 := ⟨m - 1, by omega⟩
      subst hm2
      rw [hS, List.take_succ_cons]
      congr 2
    rw [respScan, respScanF]
    have hnolf : ∀ c ∈ (natDigits args.length ++ [13, 10] ++ bulksEnc args).take (m - 1),
        c ≠ 10 := by
      intro c hc
      have hsub : (natDigits args.length ++ [13, 10] ++ bulksEnc args).take (m - 1)
          = ((natDigits args.length ++ [13, 10] ++ bulksEnc args).take (dA + 1)).take (m - 1) := by
        rw [List.take_take, Nat.min_eq_left (by omega)]
      have htk : (natDigits args.length ++ [13, 10] ++ bulksEnc args).take (dA + 1)
          = natDigits args.length ++ [13] := by
        have h5 : natDigits args.length ++ [13, 10] ++ bulksEnc args
            = natDigits args.length ++ ([13] ++ (10 :: bulksEnc args)) := by
          simp
        rw [h5, show dA + 1 = (natDigits args.length).length + 1 from by rw [hdA],
          take_app_add]
        simp
      rw [hsub, htk] at hc
      have hc2 := mem_of_take _ _ _ hc
      rcases List.mem_append.mp hc2 with h7 | h7
      · exact natDigits_no_lf _ c h7
      · simp at h7
        omega
    have hlfn : findLFFrom ((encodeRESP args).take m) 1 = none := by
      rw [findLFFrom]
      have hdrop : ((encodeRESP args).take m).drop 1
          = (natDigits args.length ++ [13, 10] ++ bulksEnc args).take (m - 1) := by
        rw [hp]
        rfl
      rw [hdrop, findLF_none _ hnolf]
      rfl
    rw [hlfn]
  · have hm3 : dA + 3 ≤ m := by omega
    have hq : (encodeRESP args).take m
        = (42 :: (natDigits args.length ++ [13, 10]))
            ++ (bulksEnc args).take (m - (dA + 3)) := by
      have h1 : encodeRESP args
          = (42 :: (natDigits args.length ++ [13, 10])) ++ bulksEnc args := by
        simp [encodeRESP]
      have h2 := take_app_add (42 :: (natDigits args.length ++ [13, 10]))
        (bulksEnc args) (m - (dA + 3))
      have h3 : (42 :: (natDigits args.length ++ [13, 10])).length = dA + 3 := by
        simp [hdA]
      rw [h3, show dA + 3 + (m - (dA + 3)) = m by omega] at h2
      rw [h1, h2]
    rw [respScan, hq]
    rw [respScanF_hdr args ((bulksEnc args).take (m - (dA + 3))) hne hcnt]
    have hmq : m - (dA + 3) < (bulksEnc args).length := by omega
    have hpr : (42 :: (natDigits args.length ++ [13, 10])).length = dA + 3 := by
      simp [hdA]
    rcases readBulks_strictPre args (42 :: (natDigits args.length ++ [13, 10]))
        (m - (dA + 3)) [] (by simp) hx hmq with hnr | ⟨marks2, i2, hdone, hlt, hge2⟩
    · rw [hpr] at hnr
      rw [show dA + 2 = dA + 3 - 1 by omega, hnr]
    · rw [hpr] at hdone
      rw [show dA + 2 = dA + 3 - 1 by omega, hdone]
      dsimp only
      rw [if_neg (by simp at hlt; omega)]
      exact respScanF_more_of_ge _ _ (by omega) _

/-- A strict prefix of a RESP encoding parses to no command, consuming no
bytes (the need-more state of the reader). -/
theorem readCommands_encode_strictPre (args : List Bytes) (m : Nat) (hne : args ≠ [])
    (hcnt : args.length < 2 ^ 63) (hx : ∀ x ∈ args, x.length < 2 ^ 63)
    (hm : m < (encodeRESP args).length) :
    readCommands ((encodeRESP args).take m) = .ok ([], (encodeRESP args).take m) := by
  rcases Nat.eq_zero_or_pos m with hm0 | hm1
  · subst hm0
    rfl
  · have hp : (encodeRESP args).take m
        = 42 :: (natDigits args.length ++ [13, 10] ++ bulksEnc args).take (m - 1) := by
      obtain ⟨m2, hm2⟩ : ∃ m2, m = m2 + 1 := ⟨m - 1, by omega⟩
      subst hm2
      rw [show encodeRESP args
        = 42 :: (natDigits args.length ++ [13, 10] ++ bulksEnc args) from rfl,
        List.take_succ_cons]
      congr 2
    rw [readCommands, hp, readCommandsF]
    dsimp only
    rw [if_pos rfl]
    rw [← hp]
    rw [respScan_encode_strictPre args m hne hcnt hx hm1 hm]

/-! ### Chunked arrival: the reader's buffer across stream reads -/

/-- The command produced for an argument vector parsed from RESP (raw is
the on-wire encoding). -/
def cmdOf (args : List Bytes) : Command := ⟨encodeRESP args, args⟩

/-- Concatenated RESP encodings of a pipeline of commands. -/
def encodePipeline : List (List Bytes) → Bytes
  | [] => []
  | a :: rest => encodeRESP a ++ encodePipeline rest

/-- Concatenation of a chunk list. -/
def joinList : List Bytes → Bytes
  | [] => []
  | l :: rest => l ++ joinList rest

/-- Well-formedness for the size hypotheses of `parseInt` (no 64-bit
overflow in counts or bulk lengths). -/
def wfArgs (a : List Bytes) : Prop :=
  a ≠ [] ∧ a.length < 2 ^ 63 ∧ ∀ x ∈ a, x.length < 2 ^ 63

instance (a : List Bytes) : Decidable (wfArgs a) := by
  unfold wfArgs
  infer_instance

/-- Feeding the stream to the reader chunk by chunk: each arrival appends
to the buffered leftover, one `readCommands` pass runs, and the parsed
commands are emitted while the unconsumed remainder stays buffered.  This
is the pure content of the refill loop of `Reader.readCommands` /
`ReadCommands`. -/
def feedChunks : List Bytes → Bytes → Except Err (List Command × Bytes)
  | [], buf => .ok ([], buf)
  | ch :: rest, buf =>
    match readCommands (buf ++ ch) with
    | .error e => .error e
    | .ok (cmds, buf2) =>
      match feedChunks rest buf2 with
      | .error e => .error e
      | .ok (cmds2, buf3) => .ok (cmds ++ cmds2, buf3)

theorem readCommands_encodeAll (A : List (List Bytes)) : ∀ p : Bytes,
    (∀ a ∈ A, wfArgs a) → readCommands p = .ok ([], p) →
    readCommands (encodePipeline A ++ p) = .ok (A.map cmdOf, p) := by
  induction A with
  | nil =>
    intro p _ hp
    simpa [encodePipeline] using hp
  | cons a A ih =>
    intro p hA hp
    have hw := hA a (List.mem_cons_self a A)
    have hassoc : encodePipeline (a :: A) ++ p = encodeRESP a ++ (encodePipeline A ++ p) := by
      simp [encodePipeline]
    rw [hassoc, readCommands_encode a _ hw.1 hw.2.1 hw.2.2]
    rw [ih p (fun b hb => hA b (List.mem_cons_of_mem a hb)) hp]
    simp [cmdOf]

/-- Any prefix of an encoded pipeline splits into whole command encodings
followed by a strict prefix of the next encoding (or nothing). -/
theorem pipeline_prefix_decomp (A : List (List Bytes)) : ∀ q : Bytes,
    (∃ r, q ++ r = encodePipeline A) →
    ∃ A1 A2, A = A1 ++ A2 ∧
      ((A2 = [] ∧ q = encodePipeline A1) ∨
       (∃ a A3, A2 = a :: A3 ∧ ∃ m, m < (encodeRESP a).length ∧
         q = encodePipeline A1 ++ (encodeRESP a).take m)) := by
  induction A with
  | nil =>
    intro q ⟨r, hr⟩
    have hq : q = [] := by
      have := congrArg List.length hr
      simp [encodePipeline] at this
      rcases this with ⟨h1, _⟩
      exact h1
    exact ⟨[], [], rfl, Or.inl ⟨rfl, hq⟩⟩
  | cons a A ih =>
    intro q ⟨r, hr⟩
    by_cases hlen : q.length < (encodeRESP a).length
    · refine ⟨[], a :: A, rfl, Or.inr ⟨a, A, rfl, q.length, hlen, ?_⟩⟩
      have hq : q = (encodePipeline (a :: A)).take q.length := by
        rw [← hr, take_app_le _ _ _ (Nat.le_refl _), List.take_length]
      rw [hq]
      have : encodePipeline (a :: A) = encodeRESP a ++ encodePipeline A := rfl
      rw [this, take_app_le _ _ _ (by omega)]
      simp [encodePipeline]
    · have hge : (encodeRESP a).length ≤ q.length := by omega
      have hqsplit : q = encodeRESP a ++ q.drop (encodeRESP a).length := by
        have h1 : q.take (encodeRESP a).length = encodeRESP a := by
          have h2 : q.take (encodeRESP a).length
              = (q ++ r).take (encodeRESP a).length := by
            rw [take_app_le _ _ _ hge]
          rw [h2, hr]
          have : encodePipeline (a :: A) = encodeRESP a ++ encodePipeline A := rfl
          rw [this, take_app]
        conv_lhs => rw [← List.take_append_drop (encodeRESP a).length q]
        rw [h1]
      obtain ⟨A1, A2, hAeq, hcases⟩ := ih (q.drop (encodeRESP a).length)
        ⟨r, by
          have h3 : (encodeRESP a ++ q.drop (encodeRESP a).length) ++ r
              = encodeRESP a ++ encodePipeline A := by
            rw [← hqsplit, hr]
            rfl
          have h4 := h3
          rw [List.append_assoc] at h4
          exact List.append_cancel_left h4⟩
      refine ⟨a :: A1, A2, by rw [hAeq]; rfl, ?_⟩
      rcases hcases with ⟨h5, h6⟩ | ⟨a2, A3, h5, m, hm, h6⟩
      · exact Or.inl ⟨h5, by
          rw [hqsplit, h6]
          rfl⟩
      · exact Or.inr ⟨a2, A3, h5, m, hm, by
          rw [hqsplit, h6]
          simp [encodePipeline]⟩

theorem encodePipeline_app (A1 A2 : List (List Bytes)) :
    encodePipeline (A1 ++ A2) = encodePipeline A1 ++ encodePipeline A2 := by
  induction A1 with
  | nil => simp [encodePipeline]
  | cons a t ih => simp [encodePipeline, ih]

/-- Invariant step: chunked feeding of a well-formed pipeline emits exactly
its commands, leaving nothing buffered. -/
theorem feedChunks_pipeline : ∀ (chunks : List Bytes) (A : List (List Bytes)) (q : Bytes),
    (∀ a ∈ A, wfArgs a) → q ++ joinList chunks = encodePipeline A →
    readCommands q = .ok ([], q) →
    feedChunks chunks q = .ok (A.map cmdOf, []) := by
  intro chunks
  induction chunks with
  | nil =>
    intro A q hA hjoin hq
    rcases A with _ | ⟨a, A2⟩
    · have hq0 : q = [] := by
        have : q ++ joinList [] = q := by simp [joinList]
        rw [this] at hjoin
        exact hjoin
      rw [hq0]
      rfl
    · exfalso
      have hqe : q = encodePipeline (a :: A2) := by
        have : q ++ joinList [] = q := by simp [joinList]
        rw [this] at hjoin
        exact hjoin
      have hw := hA a (List.mem_cons_self a A2)
      have h1 : readCommands (encodePipeline (a :: A2))
          = .ok ((a :: A2).map cmdOf, []) := by
        have := readCommands_encodeAll (a :: A2) [] hA rfl
        simpa using this
      rw [hqe, h1] at hq
      simp [cmdOf] at hq
  | cons ch rest ih =>
    intro A q hA hjoin hq
    have hdecomp := pipeline_prefix_decomp A (q ++ ch)
      ⟨joinList rest, by
        rw [List.append_assoc]
        exact hjoin⟩
    obtain ⟨A1, A2, hAeq, hcases⟩ := hdecomp
    have hA1 : ∀ a ∈ A1, wfArgs a := fun a ha =>
      hA a (by rw [hAeq]; exact List.mem_append_left A2 ha)
    have hA2 : ∀ a ∈ A2, wfArgs a := fun a ha =>
      hA a (by rw [hAeq]; exact List.mem_append_right A1 ha)
    rcases hcases with ⟨hA2nil, hqe⟩ | ⟨a, A3, hA2eq, m, hm, hqe⟩
    · -- the chunk completes the pipeline exactly
      have hrc : readCommands (q ++ ch) = .ok (A1.map cmdOf, []) := by
        have := readCommands_encodeAll A1 [] hA1 rfl
        rw [hqe]
        simpa using this
      have hjrest : joinList rest = [] := by
        have h2 : (q ++ ch) ++ joinList rest = encodePipeline A := by
          rw [List.append_assoc]
          exact hjoin
        rw [hqe, hAeq, hA2nil] at h2
        simp at h2
        exact h2
      have hrest : feedChunks rest [] = .ok ([], []) := by
        have := ih [] [] (by simp) (by simp [joinList, hjrest, encodePipeline]) rfl
        simpa using this
      rw [feedChunks, hrc]
      dsimp only
      rw [hrest]
      rw [hAeq, hA2nil]
      simp
    · -- the chunk ends inside the next command's encoding
      have hw := hA2 a (by rw [hA2eq]; exact List.mem_cons_self a A3)
      have hpart : readCommands ((encodeRESP a).take m)
          = .ok ([], (encodeRESP a).take m) :=
        readCommands_encode_strictPre a m hw.1 hw.2.1 hw.2.2 hm
      have hrc : readCommands (q ++ ch) = .ok (A1.map cmdOf, (encodeRESP a).take m) := by
        rw [hqe]
        exact readCommands_encodeAll A1 _ hA1 hpart
      have hnext : (encodeRESP a).take m ++ joinList rest = encodePipeline A2 := by
        have h2 : (q ++ ch) ++ joinList rest = encodePipeline A := by
          rw [List.append_assoc]
          exact hjoin
        rw [hqe, hAeq, encodePipeline_app] at h2
        rw [List.append_assoc] at h2
        exact List.append_cancel_left h2
      have hrest : feedChunks rest ((encodeRESP a).take m) = .ok (A2.map cmdOf, []) := by
        exact ih A2 _ hA2 (by rw [hA2eq] at hnext ⊢; exact hnext) hpart
      rw [feedChunks, hrc]
      dsimp only
      rw [hrest]
      rw [hAeq]
      simp [encodePipeline_app]

/-- C3: for every byte stream that encodes a pipeline of commands and every
way of splitting it into chunks, feeding the chunks to the incremental
reader yields the same commands in the same order (with nothing left
buffered); and when the buffered bytes end mid-command the reader reports
need-more (`.ok ([], buf)`), consuming none of the partial command's
bytes. -/
theorem C3_chunked_reading_invariance (A : List (List Bytes)) (chunks : List Bytes)
    (hA : ∀ a ∈ A, wfArgs a)
    (hjoin : joinList chunks = encodePipeline A) :
    feedChunks chunks [] = .ok (A.map cmdOf, []) ∧
    (∀ a m, wfArgs a → m < (encodeRESP a).length →
      readCommands ((encodeRESP a).take m) = .ok ([], (encodeRESP a).take m)) := by
  constructor
  · exact feedChunks_pipeline chunks A [] hA (by simpa using hjoin) rfl
  · intro a m hw hm
    exact readCommands_encode_strictPre a m hw.1 hw.2.1 hw.2.2 hm

/-- C3 witness: the pipeline `*1\r\n$4\r\nPING\r\n` delivered one byte at
a time yields exactly the one command; the strict prefix `*1` is
need-more with nothing consumed. -/
theorem C3_chunked_reading_invariance_witness :
    feedChunks [[42], [49], [13], [10], [36], [52], [13], [10],
        [80], [73], [78], [71], [13], [10]] []
      = .ok ([⟨ascii "*1\r\n$4\r\nPING\r\n", [ascii "PING"]⟩], []) ∧
    readCommands [42, 49] = .ok ([], [42, 49]) := by
  have h := C3_chunked_reading_invariance [[ascii "PING"]]
    [[42], [49], [13], [10], [36], [52], [13], [10], [80], [73], [78], [71], [13], [10]]
    (by decide) (by rfl)
  exact ⟨h.1, h.2 [ascii "PING"] 2 (by decide) (by decide)⟩

/-- C6: a telnet line that parses to a non-empty argument vector is
re-encoded to RESP as its raw form, and the RESP parser accepts that raw
and recovers exactly the same argument vector; in particular the line
`"HELLO " JELLO` parses to args `HELLO ` and `JELLO` with raw
`*2\r\n$6\r\nHELLO \r\n$5\r\nJELLO\r\n`. -/
theorem C6_telnet_resp_roundtrip :
    (∀ line args, telnetParseLine line = .ok args → args ≠ [] →
      args.length < 2 ^ 63 → (∀ x ∈ args, x.length < 2 ^ 63) →
      readCommands (encodeRESP args) = .ok ([⟨encodeRESP args, args⟩], [])) ∧
    readCommands (ascii "\"HELLO \" JELLO\n")
      = .ok ([⟨ascii "*2\r\n$6\r\nHELLO \r\n$5\r\nJELLO\r\n",
              [ascii "HELLO ", ascii "JELLO"]⟩], []) := by
  constructor
  · intro line args _ hne hcnt hx
    have h := readCommands_encode args [] hne hcnt hx
    have h0 : readCommands ([] : Bytes) = .ok ([], []) := rfl
    rw [h0] at h
    dsimp only at h
    simpa using h
  · rfl

/-- C6 witness: the general round-trip applied to the spec's example
line. -/
theorem C6_telnet_resp_roundtrip_witness :
    readCommands (encodeRESP [ascii "HELLO ", ascii "JELLO"])
      = .ok ([⟨encodeRESP [ascii "HELLO ", ascii "JELLO"],
              [ascii "HELLO ", ascii "JELLO"]⟩], []) :=
  C6_telnet_resp_roundtrip.1 (ascii "\"HELLO \" JELLO")
    [ascii "HELLO ", ascii "JELLO"] (by rfl) (by decide) (by decide) (by decide)

/-- A successful `case '*'` scan records at least one mark (the count gate
`count <= 0` rejects empty multibulks). -/
theorem respScanF_cmd_marks (b : Bytes) : ∀ (fuel i iEnd : Nat) (marks : List (Nat × Nat)),
    respScanF b fuel i = .cmd iEnd marks → marks ≠ [] := by
  intro fuel
  induction fuel with
  | zero =>
    intro i iEnd marks h
    rw [respScanF] at h
    cases h
  | succ fuel ih =>
    intro i iEnd marks h
    rw [respScanF] at h
    rcases hlf : findLFFrom b i with _ | k
    · rw [hlf] at h
      cases h
    · rw [hlf] at h
      dsimp only at h
      by_cases hcr : at0 b (k - 1) ≠ 13
      · rw [if_pos hcr] at h
        cases h
      · rw [if_neg hcr] at h
        by_cases hok : ¬(parseInt (slice b 1 (k - 1))).2 = true ∨
            (parseInt (slice b 1 (k - 1))).1 ≤ 0
        · rw [if_pos hok] at h
          cases h
        · rw [if_neg hok] at h
          rcases hrb : readBulks b k (parseInt (slice b 1 (k - 1))).1.toNat [] with
            e | _ | ⟨marks2, i2⟩
          · rw [hrb] at h
            cases h
          · rw [hrb] at h
            cases h
          · rw [hrb] at h
            dsimp only at h
            by_cases hm : marks2.length = (parseInt (slice b 1 (k - 1))).1.toNat
            · rw [if_pos hm] at h
              cases h
              intro hnil
              rw [hnil] at hm
              simp at hm
              push_neg at hok
              omega
            · rw [if_neg hm] at h
              exact ih _ _ _ h

/-- Every command emitted by one parse pass has a non-empty argument
vector: the telnet branch only emits non-empty vectors and the RESP branch
rejects non-positive multibulk counts. -/
theorem readCommandsF_args_nonempty : ∀ (fuel : Nat) (b : Bytes)
    (cmds : List Command) (rest : Bytes),
    readCommandsF fuel b = .ok (cmds, rest) → ∀ c ∈ cmds, c.args ≠ [] := by
  intro fuel
  induction fuel with
  | zero =>
    intro b cmds rest h
    rw [readCommandsF] at h
    cases h
    simp
  | succ fuel ih =>
    intro b cmds rest h
    rcases b with _ | ⟨c0, t⟩
    · rw [readCommandsF] at h
      cases h
      simp
    · rw [readCommandsF] at h
      dsimp only at h
      by_cases hc : c0 = 42
      · rw [if_pos hc] at h
        rcases hrs : respScan (c0 :: t) 1 with e | _ | ⟨iEnd, marks⟩
        · rw [hrs] at h
          cases h
        · rw [hrs] at h
          cases h
          simp
        · rw [hrs] at h
          dsimp only at h
          rcases hrec : readCommandsF fuel ((c0 :: t).drop (iEnd + 1)) with e | ⟨cmds2, rest2⟩
          · rw [hrec] at h
            cases h
          · rw [hrec] at h
            cases h
            intro c hcm
            rcases List.mem_cons.mp hcm with hcm1 | hcm1
            · subst hcm1
              have hne := respScanF_cmd_marks (c0 :: t) _ _ _ _ hrs
              simp only [argsFromMarks]
              intro hmap
              exact hne (List.map_eq_nil_iff.mp hmap)
            · exact ih _ _ _ hrec c hcm1
      · rw [if_neg hc] at h
        rcases hlf : findLFFrom (c0 :: t) 0 with _ | i
        · rw [hlf] at h
          cases h
          simp
        · rw [hlf] at h
          dsimp only at h
          rcases hta : telnetArgs (if 0 < i ∧ at0 (c0 :: t) (i - 1) = 13
              then slice (c0 :: t) 0 (i - 1) else slice (c0 :: t) 0 i)
              0 [] false 0 false [] with e | args
          · rw [hta] at h
            cases h
          · rw [hta] at h
            dsimp only at h
            rcases hrec : readCommandsF fuel ((c0 :: t).drop (i + 1)) with e | ⟨cmds2, rest2⟩
            · rw [hrec] at h
              cases h
            · rw [hrec] at h
              dsimp only at h
              by_cases hargs : 0 < args.length
              · rw [if_pos hargs] at h
                cases h
                intro c hcm
                rcases List.mem_cons.mp hcm with hcm1 | hcm1
                · subst hcm1
                  simp only
                  intro hnil
                  rw [hnil] at hargs
                  simp at hargs
                · exact ih _ _ _ hrec c hcm1
              · rw [if_neg hargs] at h
                cases h
                exact ih _ _ _ hrec

/-- C10: every command produced by the stream reader's parse pass has at
least one argument, so ServeMux.ServeRESP's unconditional `cmd.Args[0]`
read is in bounds for server-dispatched commands. -/
theorem C10_reader_commands_nonempty (b : Bytes) (cmds : List Command) (rest : Bytes)
    (h : readCommands b = .ok (cmds, rest)) : ∀ c ∈ cmds, 0 < c.args.length := by
  intro c hcm
  have := readCommandsF_args_nonempty (b.length + 1) b cmds rest h c hcm
  cases hargs : c.args with
  | nil => exact absurd hargs this
  | cons x xs => simp

/-- C10 witness: applied to a parsed `PING` and a telnet `GET foo`
pipeline. -/
theorem C10_reader_commands_nonempty_witness :
    0 < (Command.mk (ascii "*1\r\n$4\r\nPING\r\n") [ascii "PING"]).args.length ∧
    0 < (Command.mk (ascii "*2\r\n$3\r\nGET\r\n$3\r\nfoo\r\n")
          [ascii "GET", ascii "foo"]).args.length := by
  constructor
  · exact C10_reader_commands_nonempty (ascii "*1\r\n$4\r\nPING\r\n") _ [] rfl _
      (List.mem_singleton.mpr rfl)
  · exact C10_reader_commands_nonempty (ascii "GET foo\n") _ [] rfl _
      (List.mem_singleton.mpr rfl)

/-- C7: the standalone `Parse` entry point returns `incomplete-command`
for empty input and for any input from which no complete command can be
parsed, `too-much-data` when unconsumed bytes remain after a parsed
command, `invalid-multibulk-length` for `*-1\r\n`, and the single parsed
command on success. -/
theorem C7_parse_entry_point :
    Parse [] = .error .incompleteCommand ∧
    (∀ b, readCommands b = .ok ([], b) → Parse b = .error .incompleteCommand) ∧
    (∀ b c cs rest, readCommands b = .ok (c :: cs, rest) → rest ≠ [] →
      Parse b = .error .tooMuchData) ∧
    Parse (ascii "*-1\r\n") = .error .invalidMultiBulkLength ∧
    (∀ b c, readCommands b = .ok ([c], []) → Parse b = .ok c) := by
  refine ⟨rfl, ?_, ?_, rfl, ?_⟩
  · intro b h
    rw [Parse, h]
  · intro b c cs rest h hrest
    rw [Parse, h]
    dsimp only
    rw [if_pos (by cases rest with | nil => exact absurd rfl hrest | cons d l => simp)]
  · intro b c h
    rw [Parse, h]
    dsimp only
    rw [if_neg (by simp)]

/-- C7 witness: the component facts at concrete inputs — a truncated
multibulk, a command with trailing garbage, and a well-formed single
command. -/
theorem C7_parse_entry_point_witness :
    Parse (ascii "*1\r\n") = .error .incompleteCommand ∧
    Parse (ascii "*1\r\n$1\r\nA\r\nzz") = .error .tooMuchData ∧
    Parse (ascii "*1\r\n$1\r\nA\r\n")
      = .ok ⟨ascii "*1\r\n$1\r\nA\r\n", [ascii "A"]⟩ := by
  refine ⟨?_, ?_, ?_⟩
  · exact C7_parse_entry_point.2.1 (ascii "*1\r\n") (by rfl)
  · exact C7_parse_entry_point.2.2.1 (ascii "*1\r\n$1\r\nA\r\nzz")
      ⟨ascii "*1\r\n$1\r\nA\r\n", [ascii "A"]⟩ [] (ascii "zz") (by rfl) (by decide)
  · exact C7_parse_entry_point.2.2.2.2 (ascii "*1\r\n$1\r\nA\r\n")
      ⟨ascii "*1\r\n$1\r\nA\r\n", [ascii "A"]⟩ (by rfl)

/-! ### `ReadNextCommand` and the native (Tile38) dialect (src/append.go) -/

/-- First index holding a space byte (the scans `if b[i] == ' '`). -/
def findSP : Bytes → Option Nat
  | [] => none
  | c :: rest => if c = 32 then some 0 else (findSP rest).map (· + 1)

/-- Scan for a space starting at index `i`. -/
def findSPFrom (b : Bytes) (i : Nat) : Option Nat :=
  (findSP (b.drop i)).map (· + i)

/-- ASCII lowering of one byte; models `strings.ToLower` on the ASCII
command words the source compares against. -/
def toLowerByte (c : Nat) : Nat := if 65 ≤ c ∧ c ≤ 90 then c + 32 else c

def lowerBytes (s : Bytes) : Bytes := s.map toLowerByte

/-- The quoted-fragment condition of `readTile38Command`: args so far are
non-empty, lowercased `args[0]` is `set` and the lowercased last arg is
`string`. -/
def tileQuoteCond (args : List Bytes) : Bool :=
  0 < args.length && lowerBytes (args.headD []) = ascii "set"
    && lowerBytes (args.getLastD []) = ascii "string"

/-- The `reading` payload-tokenizing loop of `readTile38Command`, fuelled
for structural recursion (each step strictly shortens `line`). -/
def tile38ArgsF : Nat → Bytes → List Bytes → List Bytes
  | 0, _, args => args
  | fuel + 1, line, args =>
    match line with
    | [] => args
    | c :: rest =>
      if c = 123 then args ++ [c :: rest]
      else if c = 34 ∧ (c :: rest).getLast? = some 34 ∧ tileQuoteCond args then
        args ++ [((c :: rest).drop 1).take ((c :: rest).length - 2)]
      else
        match findSP (c :: rest) with
        | some i =>
          tile38ArgsF fuel ((c :: rest).drop (i + 1))
            (args ++ if 0 < ((c :: rest).take i).length then [(c :: rest).take i] else [])
        | none => args ++ [c :: rest]

def tile38Args (line : Bytes) (args : List Bytes) : List Bytes :=
  tile38ArgsF line.length line args

/-- `readTile38Command` from src/append.go: `$<N> <payload>\r\n` with the
payload tokenized by `tile38Args`.  (On a negative parsed length that
passes the remaining-bytes check, Go would panic on the slice; the model's
clamping there is unreachable because the length check `n < 0` rejects
negatives first.) -/
def readTile38Command (b : Bytes) : Except Err (Bytes × List Bytes × Bool) :=
  match findSPFrom b 1 with
  | none => .error .incompletePacket
  | some i =>
    let r := parseInt (slice b 1 i)
    if ¬r.2 ∨ r.1 < 0 then .error .invalidMessage
    else
      let n := r.1.toNat
      if i + 1 + n + 2 ≤ b.length then
        if at0 b (i + 1 + n) ≠ 13 ∨ at0 b (i + 1 + n + 1) ≠ 10 then
          .error .invalidMessage
        else
          .ok (b.drop (i + 1 + n + 2), tile38Args (slice b (i + 1) (i + 1 + n)) [],
            decide (i + 1 = b.length))
      else .error .incompletePacket

/-- `readTelnetCommand` from src/append.go (same line splitter as the
stream reader's telnet branch; no RESP re-encoding here). -/
def readTelnetCommand (b : Bytes) : Except Err (Bytes × List Bytes × Bool) :=
  match findLFFrom b 0 with
  | none => .error .incompletePacket
  | some i =>
    let line := if 0 < i ∧ at0 b (i - 1) = 13 then slice b 0 (i - 1) else slice b 0 i
    match telnetArgs line 0 [] false 0 false [] with
    | .error e => .error e
    | .ok args => .ok (b.drop (i + 1), args, decide (i = b.length))

/-- The `nextArg` bulk loop of `ReadNextCommand`'s Redis branch.  The
second argument counts the bulks still to read (`j == count-1` becomes
`j = 0`).  `count0` is the parsed multibulk count, which the source —
apparently by slip — checks instead of the bulk length `n` (`!ok ||
count <= 0`); it is always positive on this path.  On a negative `n` that
passes the remaining-length check Go panics slicing; the model's `toNat`
clamps there, a case no claim exercises. -/
def readNextArgs (packet : Bytes) (count0 : Nat) :
    Nat → Nat → List Bytes → Except Err (Bytes × List Bytes × Bool)
  | _, 0, _ => .error .incompletePacket
  | i, j + 1, args =>
    if i = packet.length then .error .incompletePacket
    else if at0 packet i ≠ 36 then .error (.expectedDollar (at0 packet i))
    else
      match findLFFrom packet i with
      | none => .error .incompletePacket
      | some k =>
        if at0 packet (k - 1) ≠ 13 then .error .invalidBulkLength
        else
          let r := parseInt (slice packet (i + 1) (k - 1))
          if ¬r.2 ∨ count0 ≤ 0 then .error .invalidBulkLength
          else
            let n := r.1
            if (n : Int) + 2 ≤ (packet.length : Int) - (k + 1) then
              if at0 packet ((k + 1 : Int) + n).toNat ≠ 13 ∨
                  at0 packet ((k + 1 : Int) + n + 1).toNat ≠ 10 then
                .error .invalidBulkLength
              else
                let args2 := args ++ [slice packet (k + 1) ((k + 1 : Int) + n).toNat]
                let i3 := ((k + 1 : Int) + n + 2).toNat
                if j = 0 then .ok (packet.drop i3, args2, decide (i3 = packet.length))
                else readNextArgs packet count0 i3 j args2
            else .error .incompletePacket

/-- The Redis branch of `ReadNextCommand`: the count check is `count < 0`
(so zero is permitted) and `count == 0` returns an empty-args command
consuming exactly the header. -/
def readNextRedis (packet : Bytes) : Except Err (Bytes × List Bytes × Bool) :=
  match findLFFrom packet 1 with
  | none => .error .incompletePacket
  | some i =>
    if at0 packet (i - 1) ≠ 13 then .error .invalidMultiBulkLength
    else
      let r := parseInt (slice packet 1 (i - 1))
      if ¬r.2 ∨ r.1 < 0 then .error .invalidMultiBulkLength
      else if r.1 = 0 then
        .ok (packet.drop (i + 1), [], decide (i + 1 = packet.length))
      else readNextArgs packet r.1.toNat (i + 1) r.1.toNat []

/-- `ReadNextCommand` from src/append.go: dialect dispatch on the first
byte, then the Redis multibulk branch. -/
def ReadNextCommand (packet : Bytes) : Except Err (Bytes × List Bytes × Bool) :=
  match packet with
  | [] => .error .incompletePacket
  | c :: _ =>
    if c ≠ 42 then
      if c = 36 then readTile38Command packet
      else readTelnetCommand packet
    else readNextRedis packet

/-- C1 counterexample: the stream reader rejects `*0\r\n` — its count gate
is `count <= 0`, so the zero-count command is an invalid-multibulk-length
protocol error rather than an accepted empty-args command. -/
theorem C1_zero_count_counterexample :
    readCommands (ascii "*0\r\n") = .error .invalidMultiBulkLength := rfl

/-- C1 (amended): only `ReadNextCommand` accepts `*0\r\n` — its gate is
`count < 0` and `count == 0` returns an empty-args command consuming
exactly those four bytes (for every continuation of the packet); the
stream reader (`readCommands`, and hence `Parse`) instead rejects it. -/
theorem C1_zero_count_split_behavior :
    (∀ rest : Bytes, ReadNextCommand (42 :: 48 :: 13 :: 10 :: rest)
      = .ok (rest, [], decide (rest = []))) ∧
    readCommands (ascii "*0\r\n") = .error .invalidMultiBulkLength ∧
    Parse (ascii "*0\r\n") = .error .invalidMultiBulkLength := by
  refine ⟨?_, rfl, rfl⟩
  intro rest
  show readNextRedis (42 :: 48 :: 13 :: 10 :: rest) = _
  rw [readNextRedis]
  have hlf : findLFFrom (42 :: 48 :: 13 :: 10 :: rest) 1 = some 3 := by
    have h0 := findLFFrom_split (42 :: 48 :: 13 :: 10 :: rest) [42] [48, 13] rest 1
      (by simp) rfl (by intro c hc; simp at hc; omega)
    simpa using h0
  rw [hlf]
  dsimp only
  rw [show at0 (42 :: 48 :: 13 :: 10 :: rest) (3 - 1) = 13 from rfl]
  rw [if_neg (by omega)]
  rw [show slice (42 :: 48 :: 13 :: 10 :: rest) 1 (3 - 1) = [48] from rfl]
  rw [show parseInt [48] = (0, true) from rfl]
  dsimp only
  rw [if_neg (by simp)]
  rw [if_pos rfl]
  rw [show (42 :: 48 :: 13 :: 10 :: rest).drop (3 + 1) = rest from rfl]
  have hiff : (3 + 1 = (42 :: 48 :: 13 :: 10 :: rest).length) ↔ (rest = []) := by
    simp only [List.length_cons]
    constructor
    · intro h
      have h0 : rest.length = 0 := by omega
      exact List.length_eq_zero.mp h0
    · intro h
      subst h
      rfl
  rw [decide_eq_decide.mpr hiff]

theorem findSP_none (l : Bytes) (h : ∀ c ∈ l, c ≠ 32) : findSP l = none := by
  induction l with
  | nil => rfl
  | cons c t ih =>
    have hc : c ≠ 32 := h c (List.mem_cons_self c t)
    have ht : ∀ d ∈ t, d ≠ 32 := fun d hd => h d (List.mem_cons_of_mem c hd)
    simp [findSP, hc, ih ht]

/-- C5: in the native dialect's payload tokenizer, a fragment that begins
and ends with a double quote is emitted as one argument with the quotes
stripped exactly when the accumulated args have lowercased `args[0]` equal
to `set` and lowercased last arg equal to `string`; otherwise the quote
bytes stay in the payload of the whitespace-delimited argument. -/
theorem C5_tile38_quote_rule :
    (∀ line args, at0 line 0 = 34 → line.getLast? = some 34 → 2 ≤ line.length →
      tileQuoteCond args = true →
      tile38Args line args = args ++ [(line.drop 1).take (line.length - 2)]) ∧
    (∀ line args, at0 line 0 = 34 → line.getLast? = some 34 → (∀ c ∈ line, c ≠ 32) →
      tileQuoteCond args = false →
      tile38Args line args = args ++ [line]) := by
  constructor
  · intro line args h0 hl _ hcond
    rcases line with _ | ⟨c, rest⟩
    · simp [at0] at h0
    · have hc : c = 34 := h0
      subst hc
      show tile38ArgsF (rest.length + 1) (34 :: rest) args = _
      rw [tile38ArgsF]
      rw [if_neg (by omega)]
      rw [if_pos ⟨rfl, hl, by rw [hcond]⟩]
  · intro line args h0 hl hnosp hcond
    rcases line with _ | ⟨c, rest⟩
    · simp [at0] at h0
    · have hc : c = 34 := h0
      subst hc
      show tile38ArgsF (rest.length + 1) (34 :: rest) args = _
      rw [tile38ArgsF]
      rw [if_neg (by omega)]
      rw [if_neg (by
        intro hcon
        rcases hcon with ⟨_, _, hq⟩
        rw [hcond] at hq
        cases hq)]
      rw [findSP_none _ hnosp]

/-- C5 witness: `"v"` after `set k string` is stripped; `"a"` after `get`
keeps its quotes. -/
theorem C5_tile38_quote_rule_witness :
    tile38Args [34, 118, 34] [ascii "set", ascii "k", ascii "string"]
      = [ascii "set", ascii "k", ascii "string", [118]] ∧
    tile38Args [34, 97, 34] [ascii "get"] = [ascii "get", [34, 97, 34]] := by
  constructor
  · exact C5_tile38_quote_rule.1 [34, 118, 34] [ascii "set", ascii "k", ascii "string"]
      (by decide) (by decide) (by decide) (by decide)
  · exact C5_tile38_quote_rule.2 [34, 97, 34] [ascii "get"]
      (by decide) (by decide) (by decide) (by decide)

/-! ### ServeMux dispatch (src/redcon.go) -/

/-- Outcome of `ServeMux.ServeRESP`: either the handler registered under
the lowercased name runs, or the unknown-command error is written. -/
inductive Dispatch where
  | handled (name : Bytes)
  | unknown (written : Bytes)
deriving DecidableEq, Repr

/-- `ServeMux.ServeRESP`: lowercase `args[0]`, look it up among the
registered names, and on a miss write `ERR unknown command '<name>'`
where `<name>` is the lowercased lookup key (`command`), not the bytes
the client sent. -/
def serveRESP (registered : List Bytes) (arg0 : Bytes) : Dispatch :=
  let command := lowerBytes arg0
  if command ∈ registered then .handled command
  else .unknown (ascii "ERR unknown command " ++ [39] ++ command ++ [39])

/-- C4 counterexample: for the unregistered command `FOO` the mux writes
the error with the lowercased name `foo`, not the original-case name the
client sent. -/
theorem C4_unknown_command_counterexample :
    serveRESP [] (ascii "FOO")
        = .unknown (ascii "ERR unknown command " ++ [39] ++ ascii "foo" ++ [39]) ∧
    ascii "ERR unknown command " ++ [39] ++ ascii "foo" ++ [39]
        ≠ ascii "ERR unknown command " ++ [39] ++ ascii "FOO" ++ [39] := by
  constructor
  · rfl
  · decide

/-- C4 (amended): on a miss the mux always writes
`ERR unknown command '<lowercased name>'`. -/
theorem C4_unknown_command_amended (registered : List Bytes) (arg0 : Bytes)
    (h : lowerBytes arg0 ∉ registered) :
    serveRESP registered arg0
      = .unknown (ascii "ERR unknown command " ++ [39] ++ lowerBytes arg0 ++ [39]) := by
  simp [serveRESP, h]

/-- C4 witness: the amended statement at the concrete miss `FOO`. -/
theorem C4_unknown_command_amended_witness :
    serveRESP [ascii "get"] (ascii "FOO")
      = .unknown (ascii "ERR unknown command " ++ [39] ++ lowerBytes (ascii "FOO") ++ [39]) :=
  C4_unknown_command_amended [ascii "get"] (ascii "FOO") (by decide)

/-! ### Detached connections (src/redcon.go vs src/connect.go) -/

/-- `detachedConn.ReadCommand` from src/redcon.go: the queued pipeline
commands are served first, then the underlying reader — the `closed`
latch is never consulted by this version. -/
def detachedReadCommand (_closedFlag : Bool) (cmds : List Command)
    (readerNext : Except String Command) : Except String Command :=
  match cmds with
  | c :: _ => .ok c
  | [] => readerNext

/-- `detachedConn.ReadCommand` from src/connect.go (the historical
variant): the `closed` latch fails the read with `closed` before the
queue or the reader are consulted. -/
def detachedReadCommandConnect (closedFlag : Bool) (cmds : List Command)
    (readerNext : Except String Command) : Except String Command :=
  if closedFlag then .error "closed"
  else
    match cmds with
    | c :: _ => .ok c
    | [] => readerNext

/-- C9 counterexample: in src/redcon.go, ReadCommand on a closed detached
connection with a queued pipeline command returns that command — not the
error `closed`. -/
theorem C9_detached_read_counterexample :
    detachedReadCommand true [⟨[], [[65]]⟩] (.error "x") = .ok ⟨[], [[65]]⟩ ∧
    (Except.ok ⟨[], [[65]]⟩ : Except String Command) ≠ .error "closed" := by
  constructor
  · rfl
  · intro h
    exact Except.noConfusion h

/-- C9 (amended): the connect.go variant fails with `closed` after Close
regardless of the queue and reader; the redcon.go variant has no closed
check — it returns a queued command or defers to the reader. -/
theorem C9_detached_read_split_behavior :
    (∀ (cmds : List Command) (r : Except String Command),
      detachedReadCommandConnect true cmds r = .error "closed") ∧
    (∀ (c : Command) (cs : List Command) (r : Except String Command) (cl : Bool),
      detachedReadCommand cl (c :: cs) r = .ok c) ∧
    (∀ (r : Except String Command) (cl : Bool), detachedReadCommand cl [] r = r) := by
  refine ⟨?_, ?_, ?_⟩
  · intro cmds r
    rfl
  · intro c cs r cl
    rfl
  · intro r cl
    rfl

/-! ### The pub/sub engine (src/redcon.go) -/

/-- Go string comparison (`<` on strings): bytewise lexicographic. -/
def strLtB : Bytes → Bytes → Bool
  | [], [] => false
  | [], _ :: _ => true
  | _ :: _, [] => false
  | a :: as2, b :: bs => if a < b then true else if b < a then false else strLtB as2 bs

theorem strLtB_irrefl : ∀ a : Bytes, strLtB a a = false := by
  intro a
  induction a with
  | nil => rfl
  | cons c t ih => simp [strLtB, ih]

theorem strLtB_asymm : ∀ a b : Bytes, strLtB a b = true → strLtB b a = false := by
  intro a
  induction a with
  | nil =>
    intro b h
    cases b with
    | nil => cases h
    | cons d u => rfl
  | cons c t ih =>
    intro b h
    cases b with
    | nil => cases h
    | cons d u =>
      by_cases hcd : c < d
      · simp [strLtB, hcd, show ¬d < c by omega]
      · by_cases hdc : d < c
        · simp [strLtB, hcd, hdc] at h
        · simp [strLtB, hcd, hdc] at h ⊢
          exact ih u h

theorem strLtB_trans : ∀ a b c : Bytes, strLtB a b = true → strLtB b c = true →
    strLtB a c = true := by
  intro a
  induction a with
  | nil =>
    intro b c h1 h2
    cases b with
    | nil => cases h1
    | cons d u =>
      cases c with
      | nil => cases h2
      | cons e v => rfl
  | cons x t ih =>
    intro b c h1 h2
    cases b with
    | nil => cases h1
    | cons d u =>
      cases c with
      | nil => cases h2
      | cons e v =>
        by_cases hxd : x < d
        · by_cases hde : d < e
          · simp [strLtB, show x < e by omega]
          · by_cases hed : e < d
            · simp [strLtB, hde, hed] at h2
            · have hde2 : d = e := by omega
              subst hde2
              simp [strLtB, hxd, show ¬d < x by omega]
        · by_cases hdx : d < x
          · simp [strLtB, hxd, hdx] at h1
          · have hxd2 : x = d := by omega
            subst hxd2
            simp [strLtB, lt_irrefl] at h1
            by_cases hde : x < e
            · simp [strLtB, hde]
            · by_cases hed : e < x
              · simp [strLtB, hde, hed] at h2
              · simp [strLtB, hde, hed] at h2 ⊢
                exact ih u v h1 h2

theorem strLtB_conn : ∀ a b : Bytes, strLtB a b = false → strLtB b a = false →
    a = b := by
  intro a
  induction a with
  | nil =>
    intro b h1 _
    cases b with
    | nil => rfl
    | cons d u => cases h1
  | cons c t ih =>
    intro b h1 h2
    cases b with
    | nil => cases h2
    | cons d u =>
      by_cases hcd : c < d
      · simp [strLtB, hcd] at h1
      · by_cases hdc : d < c
        · simp [strLtB, hdc] at h2
        · have hcd2 : c = d := by omega
          subst hcd2
          simp [strLtB, lt_irrefl] at h1 h2
          rw [ih u h1 h2]

/-- A pub/sub index entry; the subscriber back-pointer is represented by
its id (`byEntry` reads `sconn.id`, 0 for the pivot entries that carry no
subscriber). -/
structure PSEntry where
  pattern : Bool
  channel : Bytes
  id : Nat
deriving DecidableEq, Repr

/-- `byEntry` from src/redcon.go: the btree "less" — pattern entries sort
after exact entries, then by channel, then by subscriber id. -/
def byEntry (a b : PSEntry) : Bool :=
  if ¬a.pattern ∧ b.pattern then true
  else if a.pattern ∧ ¬b.pattern then false
  else if strLtB a.channel b.channel then true
  else if strLtB b.channel a.channel then false
  else decide (a.id < b.id)

/-- Modelled from the spec: byte-class membership for the glob matcher —
`[abc]` lists bytes, `[a-z]` ranges. -/
def clsMem (c : Nat) : Bytes → Bool
  | a :: 45 :: b :: rest => (a ≤ c && c ≤ b) || clsMem c rest
  | a :: rest => (a = c) || clsMem c rest
  | [] => false

/-- Modelled from the spec: the glob matcher supplied by the external
`match` dependency (`match.Match(str, pattern)`), which is not part of
this repository — `*` matches any run, `?` any single byte, `[...]` a
byte class.  Fuelled for structural recursion; the fuel
`s.length + p.length + 1` always suffices. -/
def matchGlobF : Nat → Bytes → Bytes → Bool
  | 0, _, _ => false
  | fuel + 1, s, p =>
    match p, s with
    | [], [] => true
    | [], _ :: _ => false
    | 42 :: p2, s =>
      matchGlobF fuel s p2
        || (match s with
            | [] => false
            | _ :: s2 => matchGlobF fuel s2 (42 :: p2))
    | 63 :: p2, _ :: s2 => matchGlobF fuel s2 p2
    | 63 :: _, [] => false
    | 91 :: p2, c :: s2 =>
      clsMem c (p2.takeWhile (· ≠ 93)) && matchGlobF fuel s2 ((p2.dropWhile (· ≠ 93)).drop 1)
    | 91 :: _, [] => false
    | a :: p2, c :: s2 => (a = c) && matchGlobF fuel s2 p2
    | _ :: _, [] => false

def matchGlob (s p : Bytes) : Bool := matchGlobF (s.length + p.length + 1) s p

/-- A delivery performed by Publish: `["message", channel, message]` to an
exact subscriber, or `["pmessage", pattern, channel, message]` to a
pattern subscriber (identified by subscriber id). -/
inductive Delivery where
  | message (sid : Nat) (channel msg : Bytes)
  | pmessage (sid : Nat) (pat channel msg : Bytes)
deriving DecidableEq, Repr

/-- `PubSub.Publish` over the ordered index given as its in-order entry
sequence (the external btree's traversal; `Ascend pivot f` visits the
entries not less than the pivot, in order, while `f` returns true).
Returns the deliveries made and the returned `sent` counter.  In the
pattern scan the source increments `sent` outside the `match.Match`
guard, so every visited pattern entry is counted whether or not a
pmessage was delivered. -/
def publish (entries : List PSEntry) (channel msg : Bytes) :
    List Delivery × Nat :=
  let exact := (entries.dropWhile (fun e => byEntry e ⟨false, channel, 0⟩)).takeWhile
      (fun e => decide (e.channel = channel ∧ e.pattern = false))
  let pats := entries.dropWhile (fun e => byEntry e ⟨true, [], 0⟩)
  (exact.map (fun e => .message e.id channel msg)
      ++ (pats.filter (fun e => matchGlob channel e.channel)).map
        (fun e => .pmessage e.id e.channel channel msg),
   exact.length + pats.length)

/-- C2: with a single pattern subscription `q` and a publish to channel
`z`, no message is delivered (the glob does not match) yet Publish
returns 1 — the misplaced `sent++` counts the scanned non-matching
pattern entry, contradicting "the returned integer equals the total
number of messages delivered". -/
theorem C2_publish_count_bug :
    publish [⟨true, [113], 1⟩] [122] [109] = ([], 1) := rfl

/-- After an element satisfying the target predicate, on a sorted tail the
predicate holds on a prefix: take-while and filter agree. -/
theorem takeWhile_eq_filter_of_sorted {α : Type} (C : α → Bool) (R : α → α → Bool)
    (h3 : ∀ e f g, C e = true → R e f = true → C f = false → R f g = true → C g = false) :
    ∀ (l : List α) (e : α), C e = true → (∀ f ∈ l, R e f = true) →
    l.Pairwise (fun a b => R a b = true) →
    l.takeWhile C = l.filter C := by
  intro l
  induction l with
  | nil => intro e _ _ _; rfl
  | cons f rest2 ih =>
    intro e hCe he hsort
    have hef : R e f = true := he f (List.mem_cons_self f rest2)
    have hf2 : ∀ g ∈ rest2, R f g = true := (List.pairwise_cons.mp hsort).1
    have hrest2 : rest2.Pairwise (fun a b => R a b = true) := (List.pairwise_cons.mp hsort).2
    by_cases hCf : C f = true
    · rw [List.takeWhile_cons_of_pos hCf, List.filter_cons_of_pos hCf]
      congr 1
      exact ih f hCf hf2 hrest2
    · have hCff : C f = false := by
        cases hCfe : C f with
        | false => rfl
        | true => exact absurd hCfe hCf
      rw [List.takeWhile_cons_of_neg (by rw [hCff]; simp),
        List.filter_cons_of_neg (by rw [hCff]; simp)]
      have hnone : ∀ g ∈ rest2, C g = false := fun g hg =>
        h3 e f g hCe hef hCff (hf2 g hg)
      rw [List.filter_eq_nil_iff.mpr (fun g hg => by rw [hnone g hg]; simp)]

/-- Generic scan lemma: over a strictly sorted list, an in-order scan from
a pivot (`dropWhile` below-pivot, then `takeWhile` the target predicate)
visits exactly the elements satisfying the predicate, provided the
predicate region sits contiguously at the pivot. -/
theorem dropWhile_takeWhile_filter {α : Type} (P C : α → Bool) (R : α → α → Bool) :
    ∀ l : List α, l.Pairwise (fun a b => R a b = true) →
    (∀ e, P e = true → C e = false) →
    (∀ e f, P e = false → C e = false → R e f = true → C f = false) →
    (∀ e f g, C e = true → R e f = true → C f = false → R f g = true → C g = false) →
    (l.dropWhile P).takeWhile C = l.filter C := by
  intro l
  induction l with
  | nil => intro _ _ _ _; rfl
  | cons e rest ih =>
    intro hsort h1 h2 h3
    have he : ∀ f ∈ rest, R e f = true := (List.pairwise_cons.mp hsort).1
    have hrest : rest.Pairwise (fun a b => R a b = true) := (List.pairwise_cons.mp hsort).2
    by_cases hP : P e = true
    · rw [List.dropWhile_cons_of_pos hP, List.filter_cons_of_neg (by rw [h1 e hP]; simp)]
      exact ih hrest h1 h2 h3
    · have hPf : P e = false := by
        cases hPe : P e with
        | false => rfl
        | true => exact absurd hPe hP
      rw [List.dropWhile_cons_of_neg (by rw [hPf]; simp)]
      by_cases hC : C e = true
      · rw [List.takeWhile_cons_of_pos hC, List.filter_cons_of_pos hC]
        congr 1
        exact takeWhile_eq_filter_of_sorted C R h3 rest e hC he hrest
      · have hCf : C e = false := by
          cases hCe : C e with
          | false => rfl
          | true => exact absurd hCe hC
        rw [List.takeWhile_cons_of_neg (by rw [hCf]; simp),
          List.filter_cons_of_neg (by rw [hCf]; simp)]
        have hnone : ∀ f ∈ rest, C f = false := fun f hf =>
          h2 e f hPf hCf (he f hf)
        rw [List.filter_eq_nil_iff.mpr (fun f hf => by rw [hnone f hf]; simp)]

/-- Characterization of the btree "less": exact entries sort strictly
before pattern entries; within a group the order is lexicographic on
(channel, subscriber id). -/
theorem byEntry_true_iff (a b : PSEntry) :
    byEntry a b = true ↔
      ((a.pattern = false ∧ b.pattern = true) ∨
       (a.pattern = b.pattern ∧ (strLtB a.channel b.channel = true ∨
         (a.channel = b.channel ∧ a.id < b.id)))) := by
  rcases a with ⟨pa, ca, ia⟩
  rcases b with ⟨pb, cb, ib⟩
  have hcore : (if strLtB ca cb then true else if strLtB cb ca then false
        else decide (ia < ib)) = true ↔
      (strLtB ca cb = true ∨ (ca = cb ∧ ia < ib)) := by
    by_cases h1 : strLtB ca cb = true
    · simp [h1]
    · by_cases h2 : strLtB cb ca = true
      · have hne : ca ≠ cb := by
          intro h
          rw [h, strLtB_irrefl] at h2
          cases h2
        simp [h1, h2, hne]
      · have heq : ca = cb := by
          apply strLtB_conn
          · cases h3 : strLtB ca cb with
            | false => rfl
            | true => exact absurd h3 h1
          · cases h3 : strLtB cb ca with
            | false => rfl
            | true => exact absurd h3 h2
        subst heq
        simp [strLtB_irrefl]
    -- patterns
  cases pa <;> cases pb <;>
    simp only [byEntry, Bool.not_eq_true, Bool.false_eq_true, and_true, and_false,
      true_and, false_and, not_false_eq_true, not_true_eq_false, if_true, if_false] <;>
    simp_all [hcore]

/-- `byEntry e pivot` for the scan pivot `{pattern: false, channel: X, id: 0}`
holds exactly when `e` is an exact entry whose channel sorts before `X`. -/
theorem byEntry_pivot_iff (e : PSEntry) (X : Bytes) :
    byEntry e ⟨false, X, 0⟩ = true ↔
      (e.pattern = false ∧ strLtB e.channel X = true) := by
  rw [byEntry_true_iff]
  constructor
  · rintro (⟨h1, h2⟩ | ⟨h1, (h2 | ⟨h2, h3⟩)⟩)
    · simp at h2
    · exact ⟨h1, h2⟩
    · simp at h3
  · rintro ⟨h1, h2⟩
    exact Or.inr ⟨h1, Or.inl h2⟩

/-- C8: in the pub/sub btree order `byEntry`, exact (non-pattern) entries sort
strictly before pattern entries; within a group the order is lexicographic on
(channel, subscriber connection id); and on any `byEntry`-sorted entry list,
Publish's pivot scan — seek to `{pattern: false, channel, id: 0}` and ascend
while entries match the channel exactly — visits precisely the exact
subscriptions whose channel equals the published channel. -/
theorem C8_pubsub_order_and_scan :
    (∀ e f : PSEntry, e.pattern = false → f.pattern = true →
      byEntry e f = true ∧ byEntry f e = false) ∧
    (∀ e f : PSEntry, e.pattern = f.pattern →
      (byEntry e f = true ↔ (strLtB e.channel f.channel = true ∨
        (e.channel = f.channel ∧ e.id < f.id)))) ∧
    (∀ (l : List PSEntry) (X : Bytes),
      l.Pairwise (fun a b => byEntry a b = true) →
      (l.dropWhile (fun e => byEntry e ⟨false, X, 0⟩)).takeWhile
          (fun e => decide (e.channel = X ∧ e.pattern = false))
        = l.filter (fun e => decide (e.channel = X ∧ e.pattern = false))) := by
  refine ⟨?_, ?_, ?_⟩
  · intro e f he hf
    constructor
    · rw [byEntry_true_iff]
      exact Or.inl ⟨he, hf⟩
    · cases h : byEntry f e with
      | false => rfl
      | true =>
        rw [byEntry_true_iff] at h
        rcases h with ⟨h1, _⟩ | ⟨h1, _⟩
        · rw [hf] at h1
          cases h1
        · rw [hf, he] at h1
          cases h1
  · intro e f hp
    rw [byEntry_true_iff]
    constructor
    · rintro (⟨h1, h2⟩ | ⟨_, h⟩)
      · rw [h1, h2] at hp
        cases hp
      · exact h
    · intro h
      exact Or.inr ⟨hp, h⟩
  · intro l X hsorted
    refine dropWhile_takeWhile_filter _ _ byEntry l hsorted ?_ ?_ ?_
    · intro e hPe
      obtain ⟨h1, h2⟩ := (byEntry_pivot_iff e X).mp hPe
      show decide (e.channel = X ∧ e.pattern = false) = false
      simp only [decide_eq_false_iff_not]
      rintro ⟨hc, _⟩
      rw [hc, strLtB_irrefl] at h2
      cases h2
    · intro e f hPe hCe hR
      have hPe2 : byEntry e ⟨false, X, 0⟩ = false := hPe
      have hCe2 : decide (e.channel = X ∧ e.pattern = false) = false := hCe
      show decide (f.channel = X ∧ f.pattern = false) = false
      simp only [decide_eq_false_iff_not] at hCe2 ⊢
      rintro ⟨hfc, hfp⟩
      rw [byEntry_true_iff] at hR
      rcases hR with ⟨_, h2⟩ | ⟨h1, h2⟩
      · rw [hfp] at h2
        cases h2
      · have hep : e.pattern = false := by rw [h1, hfp]
        rcases h2 with h2 | ⟨h2, _⟩
        · rw [hfc] at h2
          have hcontra : byEntry e ⟨false, X, 0⟩ = true :=
            (byEntry_pivot_iff e X).mpr ⟨hep, h2⟩
          rw [hcontra] at hPe2
          cases hPe2
        · exact hCe2 ⟨by rw [h2, hfc], hep⟩
    · intro e f g hCe hRef hCf hRfg
      have hCe2 : decide (e.channel = X ∧ e.pattern = false) = true := hCe
      have hCf2 : decide (f.channel = X ∧ f.pattern = false) = false := hCf
      show decide (g.channel = X ∧ g.pattern = false) = false
      simp only [decide_eq_true_eq] at hCe2
      simp only [decide_eq_false_iff_not] at hCf2 ⊢
      obtain ⟨hec, hep⟩ := hCe2
      rintro ⟨hgc, hgp⟩
      rw [byEntry_true_iff] at hRef hRfg
      rcases hRef with ⟨_, h2⟩ | ⟨h1, h2⟩
      · rcases hRfg with ⟨h3, _⟩ | ⟨h3, _⟩
        · rw [h2] at h3
          cases h3
        · rw [h2, hgp] at h3
          cases h3
      · have hfp : f.pattern = false := by rw [← h1, hep]
        rw [hec] at h2
        have hXf : strLtB X f.channel = true := by
          rcases h2 with h2 | ⟨h2, _⟩
          · exact h2
          · exact absurd ⟨h2.symm, hfp⟩ hCf2
        rcases hRfg with ⟨_, h3⟩ | ⟨_, h4⟩
        · rw [hgp] at h3
          cases h3
        · rw [hgc] at h4
          rcases h4 with h4 | ⟨h4, _⟩
          · have hA := strLtB_asymm X f.channel hXf
            rw [h4] at hA
            cases hA
          · rw [h4, strLtB_irrefl] at hXf
            cases hXf

/-- Witness for C8 at a concrete sorted subscription list: two exact entries on
channel `a`, one on channel `b`, one pattern entry on `a`; pivot scan for
channel `b` yields exactly the single exact `b` subscription. -/
theorem C8_pubsub_order_and_scan_witness :
    ([⟨false, [97], 1⟩, ⟨false, [97], 2⟩, ⟨false, [98], 1⟩,
        ⟨true, [97], 1⟩] : List PSEntry).Pairwise
        (fun a b => byEntry a b = true) ∧
    (([⟨false, [97], 1⟩, ⟨false, [97], 2⟩, ⟨false, [98], 1⟩,
        ⟨true, [97], 1⟩] : List PSEntry).dropWhile
        (fun e => byEntry e ⟨false, [98], 0⟩)).takeWhile
        (fun e => decide (e.channel = [98] ∧ e.pattern = false))
      = ([⟨false, [97], 1⟩, ⟨false, [97], 2⟩, ⟨false, [98], 1⟩,
        ⟨true, [97], 1⟩] : List PSEntry).filter
        (fun e => decide (e.channel = [98] ∧ e.pattern = false)) :=
  ⟨by decide, C8_pubsub_order_and_scan.2.2 _ [98] (by decide)⟩
